import Mathlib

/-!
# paxlib/names.c: safer suffixes of archive member names

A shallow embedding of `src/paxlib/names.c` (GNU paxutils).

* A C string is the list of its bytes before the terminating NUL; reading the
  byte at an offset at or past the end yields NUL (`charAt`).
* The pointer `p` of `safer_name_suffix` is its offset from `file_name`.
* `ISSLASH` and `FILE_SYSTEM_PREFIX_LEN` are macros of `system.h`, which is not
  among the sources; they are the two fields of `Platform`.
* The `for (;;)` loop is `skip_prefixes`, bounded by a fuel argument; `none`
  means the bound was exhausted.
* The static `prefix_table[2]` is passed in and returned explicitly; the calls
  of `paxwarn` are collected in a list.
* Allocation is assumed to succeed (`xalloc_die` is not reached).
-/

namespace Paxlib

/-! ## C strings -/

/-- The terminator byte. -/
def NUL : Char := Char.ofNat 0

/-- The bytes of a C string exclude the terminator. -/
def IsCStr (s : List Char) : Prop := NUL ∉ s

instance (s : List Char) : Decidable (IsCStr s) := by
  unfold IsCStr; infer_instance

/-- Read `s[i]`: the byte at offset `i`, the terminator once the bytes are
exhausted. -/
def charAt (s : List Char) (i : Nat) : Char := s.getD i NUL

/-! ## Platform macros -/

/-- The two platform macros used by the scan. -/
structure Platform where
  /-- `ISSLASH (c)`: is the byte a directory separator. -/
  ISSLASH : Char → Bool
  /-- `FILE_SYSTEM_PREFIX_LEN (p)`: length of a platform prefix (such as a
  drive specifier) at the start of the text at `p`. -/
  FILE_SYSTEM_PREFIX_LEN : List Char → Nat

/-- Modelled from the spec: the POSIX policy, where the only separator is the
slash and there is no platform prefix. -/
def posix : Platform where
  ISSLASH := fun c => c == '/'
  FILE_SYSTEM_PREFIX_LEN := fun _ => 0

/-- Modelled from the spec: a policy with a drive specifier, an ASCII letter
followed by a colon, of length 2; the separator is the slash. -/
def drive : Platform where
  ISSLASH := fun c => c == '/'
  FILE_SYSTEM_PREFIX_LEN := fun s =>
    if (charAt s 0).isAlpha && charAt s 1 == ':' then 2 else 0

/-- What the code needs of the macros to stay inside the string: the
terminator is not a separator, and a platform prefix is part of the text.
With other macros the loop of the C code reads past the terminator, which the
embedding does not describe. -/
structure Platform.Sane (P : Platform) : Prop where
  nul_not_slash : P.ISSLASH NUL = false
  len_le : ∀ s : List Char, P.FILE_SYSTEM_PREFIX_LEN s ≤ s.length

/-! ## Hash tables of strings -/

/-- Modelled from the spec: the hash table module (`hash.h`) is not among the
sources. A table is the collection of its entries, here in insertion order. -/
abbrev Hash_table := List (List Char)

/-- Compare two strings for equality (`strcmp (name1, name2) == 0`). -/
def hash_string_compare (name1 name2 : List Char) : Bool := name1 == name2

/-- Modelled from the spec: a table is created empty. -/
def hash_initialize : Hash_table := []

/-- Modelled from the spec: the number of entries of a table. -/
def hash_get_n_entries (t : Hash_table) : Nat := t.length

/-- Modelled from the spec: `hash_insert` adds the entry unless an entry
comparing equal is present. The second component is the matching entry that
was already present; `none` stands for the returned pointer being `entry`
itself, which has then been inserted. -/
def hash_insert (t : Hash_table) (entry : List Char) :
    Hash_table × Option (List Char) :=
  match t.find? (fun e => hash_string_compare e entry) with
  | some e => (t, some e)
  | none => (t ++ [entry], none)

/-- The call `ximemdup0 (string, len)`: a fresh copy of the first `len` bytes,
with a terminator appended. -/
def ximemdup0 (string : List Char) (len : Nat) : List Char := string.take len

/-- The function `hash_string_insert_prefix`. The argument `table` is the
content of `*table` (`none` for a null pointer). Returns the new `*table`, the
returned boolean, and what was stored through `return_prefix` (`none` when
nothing was stored). -/
def hash_string_insert_prefix (table : Option Hash_table) (string : List Char)
    (len : Nat) : Option Hash_table × Bool × Option (List Char) :=
  let s := ximemdup0 string len
  let t := match table with
    | some t => t
    | none => hash_initialize
  match hash_insert t s with
  | (t', none) => (some t', true, some s)
  | (t', some _) => (some t', false, none)

/-- The static array `prefix_table[2]`: index 0 for member names, index 1 for
hard link targets. -/
structure PrefixTables where
  member : Option Hash_table
  link : Option Hash_table
deriving DecidableEq, Repr

/-- The state at program start: both pointers null. -/
def PrefixTables.init : PrefixTables := ⟨none, none⟩

/-- Read `prefix_table[link_target]`. -/
def PrefixTables.get (T : PrefixTables) (link_target : Bool) : Option Hash_table :=
  if link_target then T.link else T.member

/-- Write `prefix_table[link_target]`. -/
def PrefixTables.set (T : PrefixTables) (link_target : Bool)
    (t : Option Hash_table) : PrefixTables :=
  if link_target then { T with link := t } else { T with member := t }

/-- The function `removed_prefixes_p`. -/
def removed_prefixes_p (T : PrefixTables) : Bool :=
  (match T.member with
    | some t => hash_get_n_entries t != 0
    | none => false)
  || (match T.link with
    | some t => hash_get_n_entries t != 0
    | none => false)

/-! ## Warnings -/

/-- One call `paxwarn (errnum, format, args...)`. -/
structure Warning where
  errnum : Int
  format : List Char
  args : List (List Char)
deriving DecidableEq, Repr

/-- The table `diagnostic[]` of the prefix-removal branch. -/
def removing_diagnostic (link_target : Bool) : List Char :=
  if link_target then "Removing leading '%s' from hard link targets".toList
  else "Removing leading '%s' from member names".toList

/-- The table `diagnostic[]` of the empty-name branch. -/
def substituting_diagnostic (link_target : Bool) : List Char :=
  if link_target then "Substituting '.' for empty hard link target".toList
  else "Substituting '.' for empty member name".toList

/-- The warning `paxwarn (0, _(diagnostic[link_target]), text)` of the
prefix-removal branch. -/
def removed_warning (link_target : Bool) (text : List Char) : Warning :=
  ⟨0, removing_diagnostic link_target, [text]⟩

/-- The warning `paxwarn (0, "%s", _(diagnostic[link_target]))` of the
empty-name branch. -/
def empty_warning (link_target : Bool) : Warning :=
  ⟨0, "%s".toList, [substituting_diagnostic link_target]⟩

/-! ## The scan -/

/-- The loop `for (;;)` of `safer_name_suffix`, from offset `p`, run for at
most `fuel` iterations. Returns the offset at which the loop breaks. -/
def skip_prefixes (P : Platform) (file_name : List Char) : Nat → Nat → Option Nat
  | 0, _ => none
  | fuel + 1, p =>
    if P.ISSLASH (charAt file_name p) then
      skip_prefixes P file_name fuel (p + 1)
    else if charAt file_name p == '.' && charAt file_name (p + 1) == '.'
        && (P.ISSLASH (charAt file_name (p + 2)) || charAt file_name (p + 2) == NUL) then
      skip_prefixes P file_name fuel (p + 2)
    else
      let prefix_len := P.FILE_SYSTEM_PREFIX_LEN (file_name.drop p)
      if prefix_len == 0 then some p
      else skip_prefixes P file_name fuel (p + prefix_len)

/-- One iteration of the loop of `safer_name_suffix` at offset `p`: the next
offset, or `none` at the `break`. -/
def loop_step (P : Platform) (file_name : List Char) (p : Nat) : Option Nat :=
  if P.ISSLASH (charAt file_name p) then some (p + 1)
  else if charAt file_name p == '.' && charAt file_name (p + 1) == '.'
      && (P.ISSLASH (charAt file_name (p + 2)) || charAt file_name (p + 2) == NUL) then
    some (p + 2)
  else
    let prefix_len := P.FILE_SYSTEM_PREFIX_LEN (file_name.drop p)
    if prefix_len == 0 then none else some (p + prefix_len)

/-- The offsets of the bytes that the conditions of one iteration at offset
`p` read (`*p`, `p[0]`, `p[1]`, `p[2]`), in the order of evaluation: the
operators `&&` and `||` evaluate their right operand only when the left one
does not decide. -/
def loop_reads (P : Platform) (file_name : List Char) (p : Nat) : List Nat :=
  if P.ISSLASH (charAt file_name p) then [p]
  else if charAt file_name p == '.' then
    if charAt file_name (p + 1) == '.' then
      if P.ISSLASH (charAt file_name (p + 2)) then [p, p, p + 1, p + 2]
      else [p, p, p + 1, p + 2, p + 2]
    else [p, p, p + 1]
  else [p, p]

/-- What a call of `safer_name_suffix` leaves behind. -/
structure Outcome where
  /-- The returned string. -/
  result : List Char
  /-- The tables after the call. -/
  tables : PrefixTables
  /-- The warnings issued by the call, in order. -/
  warnings : List Warning
deriving DecidableEq, Repr

/-- The part of `safer_name_suffix` under `if (!absolute_names)`: the offset
reached, the tables and the warnings issued. -/
def strip_part (P : Platform) (T : PrefixTables) (file_name : List Char)
    (link_target : Bool) : Option (Nat × PrefixTables × List Warning) :=
  match skip_prefixes P file_name (file_name.length + 1) 0 with
  | none => none
  | some p =>
    if p != 0 then
      match hash_string_insert_prefix (T.get link_target) file_name p with
      | (t, true, stored) =>
        some (p, T.set link_target t,
          [⟨0, removing_diagnostic link_target, stored.toList⟩])
      | (t, false, _) => some (p, T.set link_target t, [])
    else some (p, T, [])

/-- The part of `safer_name_suffix` from `if (! *p)` on. -/
def finish_part (file_name : List Char) (link_target : Bool) (p : Nat)
    (T : PrefixTables) (w : List Warning) : Outcome :=
  if charAt file_name p == NUL then
    ⟨['.'], T, if p == 0 then w ++ [empty_warning link_target] else w⟩
  else ⟨file_name.drop p, T, w⟩

/-- The function `safer_name_suffix`; `none` when the scan does not come to
an end within the string. -/
def safer_name_suffix (P : Platform) (T : PrefixTables) (file_name : List Char)
    (link_target absolute_names : Bool) : Option Outcome :=
  if !absolute_names then
    match strip_part P T file_name link_target with
    | none => none
    | some (p, T', w) => some (finish_part file_name link_target p T' w)
  else some (finish_part file_name link_target 0 T [])

/-! ## Sequences of calls -/

/-- The arguments of one call of `safer_name_suffix`. -/
structure Call where
  file_name : List Char
  link_target : Bool
  absolute_names : Bool
deriving DecidableEq, Repr

/-- Run a sequence of calls, threading the tables; returns the final tables
and, for each call in order, the warnings it issued. -/
def run (P : Platform) : PrefixTables → List Call → Option (PrefixTables × List (List Warning))
  | T, [] => some (T, [])
  | T, c :: cs =>
    match safer_name_suffix P T c.file_name c.link_target c.absolute_names with
    | none => none
    | some o =>
      match run P o.tables cs with
      | none => none
      | some (T', ws) => some (T', o.warnings :: ws)

/-! ## Auxiliary notions used in the statements -/

/-- The entries of a possibly null table. -/
def entries (t : Option Hash_table) : List (List Char) :=
  match t with
  | some t => t
  | none => []

/-- The loop of `safer_name_suffix` breaks at offset `p`: none of its three
patterns matches there. -/
def Stops (P : Platform) (s : List Char) (p : Nat) : Prop :=
  P.ISSLASH (charAt s p) = false ∧
  ¬ (charAt s p = '.' ∧ charAt s (p + 1) = '.' ∧
      (P.ISSLASH (charAt s (p + 2)) = true ∨ charAt s (p + 2) = NUL)) ∧
  P.FILE_SYSTEM_PREFIX_LEN (s.drop p) = 0

/-- The call runs with `absolute_names` false in category `c`, and its scan
skips exactly the bytes `x`, at least one. -/
def strips (P : Platform) (call : Call) (c : Bool) (x : List Char) : Prop :=
  call.absolute_names = false ∧ call.link_target = c ∧
  ∃ p, skip_prefixes P call.file_name (call.file_name.length + 1) 0 = some p ∧
    p ≠ 0 ∧ call.file_name.take p = x

/-- The effect of the prefix-removal branch when the bytes `x` were skipped:
nothing for no bytes, nothing for a text already among the entries of the
category, else the text is added and a warning is issued. -/
def offer (T : PrefixTables) (link_target : Bool) (x : List Char) :
    PrefixTables × List Warning :=
  if x = [] then (T, [])
  else if x ∈ entries (T.get link_target) then (T, [])
  else (T.set link_target (some (entries (T.get link_target) ++ [x])),
    [removed_warning link_target x])

/-! ## Reference definition of the POSIX result -/

/-- Reference definition, following the words of the specification and not
the code: split the path at every slash into components (a component is
empty before a leading slash, between adjacent slashes and after a trailing
slash); leave out the leading components that are empty or exactly `..`; the
rest is what remains, joined again by slashes. -/
def reference_rest (path : List Char) : List Char :=
  ['/'].intercalate
    ((path.splitOn '/').dropWhile (fun comp => comp == [] || comp == ['.', '.']))

/-- Reference definition of the returned name: the rest, or `.` when nothing
remains. -/
def reference_result (path : List Char) : List Char :=
  if reference_rest path = [] then ['.'] else reference_rest path

/-! ## Basic facts -/

theorem charAt_drop (s : List Char) (p i : Nat) :
    charAt (s.drop p) i = charAt s (p + i) := by
  simp [charAt, List.getD_eq_getElem?_getD, List.getElem?_drop]

theorem lt_of_charAt_ne_nul {s : List Char} {p : Nat} (h : charAt s p ≠ NUL) :
    p < s.length := by
  by_contra hlt
  apply h
  simp [charAt, List.getD_eq_getElem?_getD, List.getElem?_eq_none (not_lt.mp hlt)]

theorem charAt_of_le {s : List Char} {p : Nat} (h : s.length ≤ p) :
    charAt s p = NUL := by
  simp [charAt, List.getD_eq_getElem?_getD, List.getElem?_eq_none h]

theorem charAt_eq_nul_iff {s : List Char} (hs : IsCStr s) (p : Nat) :
    charAt s p = NUL ↔ s.length ≤ p := by
  constructor
  · intro h
    by_contra hlt
    push_neg at hlt
    apply hs
    have : s[p] = NUL := by
      simpa [charAt, List.getD_eq_getElem?_getD, List.getElem?_eq_getElem hlt] using h
    rw [← this]
    exact List.getElem_mem hlt
  · exact charAt_of_le

theorem dot_ne_nul : ('.' : Char) ≠ NUL := by decide

theorem posix_sane : posix.Sane :=
  ⟨by decide, fun _ => Nat.zero_le _⟩

theorem drive_sane : drive.Sane := by
  refine ⟨by decide, fun s => ?_⟩
  show (if (charAt s 0).isAlpha && charAt s 1 == ':' then 2 else 0) ≤ s.length
  split
  · rename_i h
    simp only [Bool.and_eq_true, beq_iff_eq] at h
    have h1 : charAt s 1 ≠ NUL := by rw [h.2]; decide
    have := lt_of_charAt_ne_nul h1
    omega
  · exact Nat.zero_le _

/-- One unfolding of the loop. -/
theorem skip_prefixes_succ (P : Platform) (s : List Char) (fuel p : Nat) :
    skip_prefixes P s (fuel + 1) p =
      if P.ISSLASH (charAt s p) = true then skip_prefixes P s fuel (p + 1)
      else if charAt s p = '.' ∧ charAt s (p + 1) = '.' ∧
          (P.ISSLASH (charAt s (p + 2)) = true ∨ charAt s (p + 2) = NUL) then
        skip_prefixes P s fuel (p + 2)
      else if P.FILE_SYSTEM_PREFIX_LEN (s.drop p) = 0 then some p
      else skip_prefixes P s fuel (p + P.FILE_SYSTEM_PREFIX_LEN (s.drop p)) := by
  simp only [skip_prefixes, Bool.and_eq_true, Bool.or_eq_true, beq_iff_eq, and_assoc]

/-- Where the loop breaks, none of the patterns matches, and the offset has
not decreased. -/
theorem skip_prefixes_stops (P : Platform) (s : List Char) :
    ∀ (fuel p q : Nat), skip_prefixes P s fuel p = some q → p ≤ q ∧ Stops P s q := by
  intro fuel
  induction fuel with
  | zero => intro p q h; simp [skip_prefixes] at h
  | succ n ih =>
    intro p q h
    rw [skip_prefixes_succ] at h
    split at h
    · have := ih _ _ h; exact ⟨by omega, this.2⟩
    · split at h
      · have := ih _ _ h; exact ⟨by omega, this.2⟩
      · split at h
        · rename_i h1 h2 h3
          cases h
          exact ⟨le_refl _, by simpa using h1, h2, h3⟩
        · have := ih _ _ h; exact ⟨by omega, this.2⟩

/-- With sane macros the loop breaks within the string, given one unit of
fuel more than there are bytes left. -/
theorem skip_prefixes_total {P : Platform} (hP : P.Sane) (s : List Char) :
    ∀ (fuel p : Nat), p ≤ s.length → s.length - p < fuel →
      ∃ q, skip_prefixes P s fuel p = some q ∧ q ≤ s.length := by
  intro fuel
  induction fuel with
  | zero => intro p _ h; omega
  | succ n ih =>
    intro p hp hf
    rw [skip_prefixes_succ]
    split
    · rename_i h1
      have : charAt s p ≠ NUL := by
        intro h0; rw [h0, hP.nul_not_slash] at h1; exact Bool.noConfusion h1
      have := lt_of_charAt_ne_nul this
      exact ih _ (by omega) (by omega)
    · split
      · rename_i h2
        have : charAt s (p + 1) ≠ NUL := by rw [h2.2.1]; exact dot_ne_nul
        have := lt_of_charAt_ne_nul this
        exact ih _ (by omega) (by omega)
      · split
        · exact ⟨p, rfl, hp⟩
        · have := hP.len_le (s.drop p)
          rw [List.length_drop] at this
          exact ih _ (by omega) (by omega)

/-- When the loop breaks at once. -/
theorem skip_prefixes_of_stops {P : Platform} {s : List Char} {p : Nat}
    (h : Stops P s p) (fuel : Nat) : skip_prefixes P s (fuel + 1) p = some p := by
  rw [skip_prefixes_succ]
  obtain ⟨h1, h2, h3⟩ := h
  simp [h1, h2, h3]

/-! ## One call -/

theorem hash_insert_eq (t : Hash_table) (s : List Char) :
    hash_insert t s = if s ∈ t then (t, some s) else (t ++ [s], none) := by
  unfold hash_insert
  split
  · rename_i e he
    have h1 := List.find?_some he
    have h2 := List.mem_of_find?_eq_some he
    simp only [hash_string_compare, beq_iff_eq] at h1
    subst h1
    simp [h2]
  · rename_i he
    have : s ∉ t := by
      intro hmem
      have := List.find?_eq_none.mp he s hmem
      simp [hash_string_compare] at this
    simp [this]

theorem hash_string_insert_prefix_eq (table : Option Hash_table) (string : List Char)
    (len : Nat) :
    hash_string_insert_prefix table string len =
      if string.take len ∈ entries table then (some (entries table), false, none)
      else (some (entries table ++ [string.take len]), true, some (string.take len)) := by
  have ht : (match table with
      | some t => t
      | none => hash_initialize) = entries table := by
    cases table <;> rfl
  simp only [ hash_string_insert_prefix, ximemdup0, ht, hash_insert_eq]
  by_cases hm : string.take len ∈ entries table
  · simp only [hm, if_true]
  · simp only [hm, if_false]

theorem set_get_entries {T : PrefixTables} {b : Bool} {x : List Char}
    (h : x ∈ entries (T.get b)) : T.set b (some (entries (T.get b))) = T := by
  cases T with
  | mk m l =>
    cases b
    · cases m with
      | none => simp [PrefixTables.get, entries] at h
      | some t => simp [PrefixTables.get, PrefixTables.set, entries]
    · cases l with
      | none => simp [PrefixTables.get, entries] at h
      | some t => simp [PrefixTables.get, PrefixTables.set, entries]

theorem get_set (T : PrefixTables) (b c : Bool) (t : Option Hash_table) :
    (T.set b t).get c = if c = b then t else T.get c := by
  cases b <;> cases c <;> simp [PrefixTables.get, PrefixTables.set]

/-- The prefix-removal branch in closed form. -/
theorem strip_part_eq (P : Platform) (T : PrefixTables) (s : List Char) (b : Bool)
    (p : Nat) (hp : skip_prefixes P s (s.length + 1) 0 = some p) (hle : p ≤ s.length) :
    strip_part P T s b = some (p, (offer T b (s.take p)).1, (offer T b (s.take p)).2) := by
  unfold strip_part
  rw [hp]
  by_cases h0 : p = 0
  · subst h0; simp [offer]
  · have hne : s.take p ≠ [] := by
      intro h
      have := congrArg List.length h
      rw [List.length_take, List.length_nil] at this
      omega
    simp only [bne_iff_ne, ne_eq, h0, not_false_eq_true, if_true,
      hash_string_insert_prefix_eq, offer, hne, if_false]
    by_cases hm : s.take p ∈ entries (T.get b)
    · simp only [hm, if_true, set_get_entries hm]
    · simp only [hm, if_false, removed_warning, Option.toList]

/-- A call that skips prefixes, in closed form. -/
theorem safer_name_suffix_false {P : Platform} (hP : P.Sane) (T : PrefixTables)
    (s : List Char) (b : Bool) :
    ∃ p, skip_prefixes P s (s.length + 1) 0 = some p ∧ p ≤ s.length ∧ Stops P s p ∧
      safer_name_suffix P T s b false =
        some (finish_part s b p (offer T b (s.take p)).1 (offer T b (s.take p)).2) := by
  obtain ⟨p, hp, hle⟩ := skip_prefixes_total hP s (s.length + 1) 0 (Nat.zero_le _) (by omega)
  refine ⟨p, hp, hle, (skip_prefixes_stops P s _ _ _ hp).2, ?_⟩
  simp [safer_name_suffix, strip_part_eq P T s b p hp hle]

/-- A call that keeps absolute names, in closed form. -/
theorem safer_name_suffix_true (P : Platform) (T : PrefixTables) (s : List Char)
    (b : Bool) :
    safer_name_suffix P T s b true = some (finish_part s b 0 T []) := by
  simp [safer_name_suffix]

theorem drop_eq_cons_charAt {s : List Char} {p : Nat} {c : Char} {rest : List Char}
    (h : s.drop p = c :: rest) : charAt s p = c := by
  have := charAt_drop s p 0
  rw [h] at this
  simpa [charAt] using this.symm

theorem drop_eq_nil_charAt {s : List Char} {p : Nat} (h : s.drop p = []) :
    charAt s p = NUL := by
  have := charAt_drop s p 0
  rw [h] at this
  simpa [charAt] using this.symm

theorem drop_ne_nil_of_charAt {s : List Char} {p : Nat} (h : charAt s p ≠ NUL) :
    s.drop p ≠ [] := fun h0 => h (drop_eq_nil_charAt h0)

theorem stops_drop {P : Platform} {s : List Char} {p : Nat} (h : Stops P s p) :
    Stops P (s.drop p) 0 := by
  unfold Stops at h ⊢
  simpa [charAt_drop] using h

/-- A text at whose start the loop breaks, and which is not empty as a C
string, is returned as it is. -/
theorem result_of_stops {P : Platform} {r : List Char} (h : Stops P r 0)
    (hne : charAt r 0 ≠ NUL) (T : PrefixTables) (b : Bool) :
    ∃ o, safer_name_suffix P T r b false = some o ∧ o.result = r ∧ o.tables = T ∧
      o.warnings = [] := by
  have hp := skip_prefixes_of_stops h r.length
  have hcall : safer_name_suffix P T r b false =
      some (finish_part r b 0 (offer T b (r.take 0)).1 (offer T b (r.take 0)).2) := by
    simp only [safer_name_suffix, Bool.not_false, if_true,
      strip_part_eq P T r b 0 hp (Nat.zero_le _)]
  refine ⟨_, hcall, ?_⟩
  simp [finish_part, offer, hne]

theorem removing_ne_percent (c : Bool) : removing_diagnostic c ≠ "%s".toList := by
  cases c <;> decide

theorem removing_diagnostic_inj {c b : Bool}
    (h : removing_diagnostic c = removing_diagnostic b) : c = b := by
  revert h
  cases c <;> cases b <;> decide

theorem substituting_diagnostic_inj {c b : Bool}
    (h : substituting_diagnostic c = substituting_diagnostic b) : c = b := by
  revert h
  cases c <;> cases b <;> decide

theorem removed_ne_empty (c b : Bool) (x : List Char) :
    removed_warning c x ≠ empty_warning b := by
  intro h
  exact removing_ne_percent c (congrArg Warning.format h)

theorem removed_warning_inj {c b : Bool} {x y : List Char} :
    removed_warning c x = removed_warning b y ↔ c = b ∧ x = y := by
  constructor
  · intro h
    have h1 := congrArg Warning.format h
    have h2 := congrArg Warning.args h
    simp only [removed_warning, List.cons.injEq, and_true] at h1 h2
    exact ⟨removing_diagnostic_inj h1, h2⟩
  · rintro ⟨rfl, rfl⟩; rfl

theorem empty_warning_inj {c b : Bool} : empty_warning c = empty_warning b ↔ c = b := by
  constructor
  · intro h
    have h2 := congrArg Warning.args h
    simp only [empty_warning, List.cons.injEq, and_true] at h2
    exact substituting_diagnostic_inj h2
  · rintro rfl; rfl

theorem finish_part_tables (s : List Char) (b : Bool) (p : Nat) (T : PrefixTables)
    (w : List Warning) : (finish_part s b p T w).tables = T := by
  unfold finish_part; split <;> rfl

theorem finish_part_warnings (s : List Char) (b : Bool) (p : Nat) (T : PrefixTables)
    (w : List Warning) :
    (finish_part s b p T w).warnings =
      if charAt s p = NUL ∧ p = 0 then w ++ [empty_warning b] else w := by
  unfold finish_part
  by_cases h0 : charAt s p = NUL
  · by_cases hp : p = 0
    · subst hp; simp [h0]
    · simp [h0, hp]
  · simp [h0]

theorem finish_part_result (s : List Char) (b : Bool) (p : Nat) (T : PrefixTables)
    (w : List Warning) :
    (finish_part s b p T w).result = if charAt s p = NUL then ['.'] else s.drop p := by
  unfold finish_part
  by_cases h0 : charAt s p = NUL <;> simp [h0]

theorem offer_warnings (T : PrefixTables) (b : Bool) (x : List Char) :
    (offer T b x).2 =
      if x ≠ [] ∧ x ∉ entries (T.get b) then [removed_warning b x] else [] := by
  unfold offer
  by_cases h0 : x = [] <;> by_cases hm : x ∈ entries (T.get b) <;> simp [h0, hm]

/-- The entries of each table after the prefix-removal branch. -/
theorem offer_entries (T : PrefixTables) (b c : Bool) (x y : List Char) :
    y ∈ entries ((offer T b x).1.get c) ↔
      y ∈ entries (T.get c) ∨ (c = b ∧ x ≠ [] ∧ y = x) := by
  unfold offer
  by_cases h0 : x = []
  · simp [h0]
  · by_cases hm : x ∈ entries (T.get b)
    · simp only [h0, hm, if_true, if_false]
      constructor
      · exact Or.inl
      · rintro (h | ⟨rfl, _, rfl⟩)
        · exact h
        · exact hm
    · simp only [h0, hm, if_false, get_set]
      by_cases hc : c = b
      · subst hc
        simp [entries, h0]
      · simp [hc]

theorem offer_get_other (T : PrefixTables) (b : Bool) (x : List Char) :
    (offer T b x).1.get (!b) = T.get (!b) := by
  unfold offer
  split
  · rfl
  · split
    · rfl
    · rw [get_set]; cases b <;> simp

theorem offer_congr {T T' : PrefixTables} {b : Bool} (h : T'.get b = T.get b)
    (x : List Char) :
    (offer T' b x).2 = (offer T b x).2 ∧ (offer T' b x).1.get b = (offer T b x).1.get b := by
  unfold offer
  rw [h]
  by_cases h0 : x = []
  · simp [h0, h]
  · by_cases hm : x ∈ entries (T.get b)
    · simp [h0, hm, h]
    · simp [h0, hm, get_set]

/-- A name made of separators only is skipped as a whole. -/
theorem skip_prefixes_all_slash {P : Platform} (hP : P.Sane) (s : List Char)
    (hsep : ∀ c ∈ s, P.ISSLASH c = true) :
    ∀ (fuel p : Nat), p ≤ s.length → s.length - p < fuel →
      skip_prefixes P s fuel p = some s.length := by
  intro fuel
  induction fuel with
  | zero => intro p _ h; omega
  | succ n ih =>
    intro p hp hf
    rw [skip_prefixes_succ]
    by_cases hlt : p < s.length
    · have hc : P.ISSLASH (charAt s p) = true := by
        have : charAt s p = s[p] := by
          simp [charAt, List.getD_eq_getElem?_getD, List.getElem?_eq_getElem hlt]
        rw [this]
        exact hsep _ (List.getElem_mem hlt)
      rw [if_pos hc]
      exact ih _ (by omega) (by omega)
    · have hpe : p = s.length := by omega
      have hnul : charAt s p = NUL := charAt_of_le (by omega)
      have h1 : ¬ P.ISSLASH (charAt s p) = true := by
        rw [hnul, hP.nul_not_slash]; exact Bool.false_ne_true
      have h2 : ¬ (charAt s p = '.' ∧ charAt s (p + 1) = '.' ∧
          (P.ISSLASH (charAt s (p + 2)) = true ∨ charAt s (p + 2) = NUL)) := by
        rintro ⟨h, _⟩
        rw [hnul] at h
        exact dot_ne_nul h.symm
      have h3 : P.FILE_SYSTEM_PREFIX_LEN (s.drop p) = 0 := by
        have := hP.len_le (s.drop p)
        rw [List.length_drop] at this
        omega
      rw [if_neg h1, if_neg h2, if_pos h3, hpe]

/-! ## Sequences of calls -/

/-- What one call does to the count of a prefix-removal warning, to the
entries of the tables, and the severity of its warnings. -/
theorem step_spec {P : Platform} (hP : P.Sane) (T : PrefixTables) (call : Call) :
    ∃ o, safer_name_suffix P T call.file_name call.link_target call.absolute_names = some o ∧
      (∀ c x, strips P call c x → x ∉ entries (T.get c) →
        o.warnings.count (removed_warning c x) = 1) ∧
      (∀ c x, ¬ (strips P call c x ∧ x ∉ entries (T.get c)) →
        o.warnings.count (removed_warning c x) = 0) ∧
      (∀ c y, y ∈ entries (o.tables.get c) ↔ y ∈ entries (T.get c) ∨ strips P call c y) ∧
      (∀ w ∈ o.warnings, w.errnum = 0) := by
  obtain ⟨s, b, a⟩ := call
  cases a
  · obtain ⟨p, hp, hle, _, hcall⟩ := safer_name_suffix_false hP T s b
    have hstrips : ∀ c x, strips P ⟨s, b, false⟩ c x ↔ (b = c ∧ p ≠ 0 ∧ s.take p = x) := by
      intro c x
      unfold strips
      constructor
      · rintro ⟨_, hb, q, hq, hq0, hqx⟩
        have : q = p := Option.some.inj (hq.symm.trans hp)
        subst this
        exact ⟨hb, hq0, hqx⟩
      · rintro ⟨hb, h0, hx⟩
        exact ⟨rfl, hb, p, hp, h0, hx⟩
    have htake : s.take p = [] ↔ p = 0 := by
      constructor
      · intro h
        have := congrArg List.length h
        rw [List.length_take, List.length_nil] at this
        omega
      · rintro rfl; rfl
    have hcount : ∀ c x, (finish_part s b p (offer T b (s.take p)).1
        (offer T b (s.take p)).2).warnings.count (removed_warning c x)
        = (offer T b (s.take p)).2.count (removed_warning c x) := by
      intro c x
      rw [finish_part_warnings]
      split
      · rw [List.count_append, List.count_singleton]
        have : (empty_warning b == removed_warning c x) = false := by
          simpa using fun h => removed_ne_empty c b x h.symm
        simp [this]
      · rfl
    refine ⟨_, hcall, ?_, ?_, ?_, ?_⟩
    · intro c x hst hx
      obtain ⟨rfl, h0, rfl⟩ := (hstrips c x).mp hst
      rw [hcount, offer_warnings]
      have : s.take p ≠ [] := fun h => h0 (htake.mp h)
      simp [this, hx]
    · intro c x hn
      rw [hcount, offer_warnings]
      split
      · rename_i h
        rw [List.count_singleton]
        have : ¬ removed_warning b (s.take p) = removed_warning c x := by
          rw [removed_warning_inj]
          rintro ⟨rfl, hx⟩
          apply hn
          refine ⟨(hstrips b x).mpr ⟨rfl, fun h0 => h.1 (htake.mpr h0), hx⟩, ?_⟩
          rw [← hx]; exact h.2
        simp [this]
      · rfl
    · intro c y
      rw [finish_part_tables, offer_entries, hstrips]
      constructor
      · rintro (h | ⟨rfl, hne, rfl⟩)
        · exact Or.inl h
        · exact Or.inr ⟨rfl, fun h0 => hne (htake.mpr h0), rfl⟩
      · rintro (h | ⟨rfl, h0, rfl⟩)
        · exact Or.inl h
        · exact Or.inr ⟨rfl, fun h => h0 (htake.mp h), rfl⟩
    · intro w hw
      rw [finish_part_warnings, offer_warnings] at hw
      have hcases : w = removed_warning b (s.take p) ∨ w = empty_warning b := by
        split at hw <;> split at hw <;> simp at hw <;> tauto
      rcases hcases with rfl | rfl <;> rfl
  · have hns : ∀ c x, ¬ strips P ⟨s, b, true⟩ c x := by
      rintro c x ⟨h, _⟩
      exact Bool.noConfusion h
    refine ⟨_, safer_name_suffix_true P T s b, ?_, ?_, ?_, ?_⟩
    · intro c x hst
      exact absurd hst (hns c x)
    · intro c x _
      rw [finish_part_warnings, List.count_eq_zero]
      split
      · simp only [List.nil_append, List.mem_singleton]
        exact removed_ne_empty _ _ _
      · simp
    · intro c y
      rw [finish_part_tables]
      simp [hns]
    · intro w hw
      rw [finish_part_warnings] at hw
      split at hw
      · simp at hw; subst hw; rfl
      · simp at hw

theorem run_cons_eq (P : Platform) (T : PrefixTables) (call : Call) (calls : List Call)
    (o : Outcome)
    (ho : safer_name_suffix P T call.file_name call.link_target call.absolute_names = some o)
    (T' : PrefixTables) (ws : List (List Warning)) (hr : run P o.tables calls = some (T', ws)) :
    run P T (call :: calls) = some (T', o.warnings :: ws) := by
  simp [run, ho, hr]

/-- A sequence of calls from arbitrary tables: how often a prefix-removal
warning is issued, and by which call. -/
theorem run_spec {P : Platform} (hP : P.Sane) :
    ∀ (calls : List Call) (T : PrefixTables),
      ∃ T' ws, run P T calls = some (T', ws) ∧ ws.length = calls.length ∧
        (∀ w ∈ ws.flatten, w.errnum = 0) ∧
        ∀ c x,
          (x ∈ entries (T.get c) → ws.flatten.count (removed_warning c x) = 0) ∧
          (x ∉ entries (T.get c) →
            ((∃ call ∈ calls, strips P call c x) →
              ws.flatten.count (removed_warning c x) = 1) ∧
            ((¬ ∃ call ∈ calls, strips P call c x) →
              ws.flatten.count (removed_warning c x) = 0) ∧
            (∀ (i : Nat) (call : Call), calls[i]? = some call → strips P call c x →
              (∀ (j : Nat) (call' : Call), j < i → calls[j]? = some call' → ¬ strips P call' c x) →
              ∃ w : List Warning, ws[i]? = some w ∧ removed_warning c x ∈ w)) := by
  intro calls
  induction calls with
  | nil =>
    intro T
    refine ⟨T, [], rfl, rfl, by simp, ?_⟩
    intro c x
    simp
  | cons call rest ih =>
    intro T
    obtain ⟨o, ho, h1, h0, hent, hsev⟩ := step_spec hP T call
    obtain ⟨T', ws, hr, hlen, hsev', hrest⟩ := ih o.tables
    refine ⟨T', o.warnings :: ws, run_cons_eq P T call rest o ho T' ws hr, by simp [hlen],
      ?_, ?_⟩
    · intro w hw
      rw [List.flatten_cons, List.mem_append] at hw
      rcases hw with hw | hw
      · exact hsev w hw
      · exact hsev' w hw
    · intro c x
      obtain ⟨hin, hout⟩ := hrest c x
      rw [List.flatten_cons, List.count_append]
      constructor
      · intro hx
        rw [h0 c x (fun h => h.2 hx), hin ((hent c x).mpr (Or.inl hx))]
      · intro hx
        by_cases hst : strips P call c x
        · have hx' : x ∈ entries (o.tables.get c) := (hent c x).mpr (Or.inr hst)
          have hc1 := h1 c x hst hx
          refine ⟨fun _ => by rw [hc1, hin hx'], ?_, ?_⟩
          · intro hn
            exact absurd ⟨call, List.mem_cons_self _ _, hst⟩ hn
          · intro i call' hi _ hfirst
            cases i with
            | zero =>
              refine ⟨o.warnings, List.getElem?_cons_zero, ?_⟩
              rw [← List.count_pos_iff, hc1]
              exact Nat.one_pos
            | succ k =>
              exact absurd hst (hfirst 0 call (Nat.succ_pos _) List.getElem?_cons_zero)
        · have hx' : x ∉ entries (o.tables.get c) := by
            rw [hent c x]
            rintro (h | h)
            · exact hx h
            · exact hst h
          have hc0 := h0 c x (fun h => hst h.1)
          obtain ⟨hA, hB, hC⟩ := hout hx'
          refine ⟨?_, ?_, ?_⟩
          · rintro ⟨call', hmem, hs'⟩
            rw [List.mem_cons] at hmem
            rcases hmem with rfl | hmem
            · exact absurd hs' hst
            · rw [hc0, hA ⟨call', hmem, hs'⟩]
          · intro hn
            rw [hc0, hB (fun ⟨call', hmem, hs'⟩ => hn ⟨call', List.mem_cons_of_mem _ hmem, hs'⟩)]
          · intro i call' hi hs' hfirst
            cases i with
            | zero =>
              simp only [List.getElem?_cons_zero, Option.some.injEq] at hi
              subst hi
              exact absurd hs' hst
            | succ k =>
              simp only [List.getElem?_cons_succ] at hi ⊢
              apply hC k call' hi hs'
              intro j call'' hj hcj
              exact hfirst (j + 1) call'' (by omega) (by simpa using hcj)

/-! ## The reference definition -/

theorem drop_of_lt {s : List Char} {p : Nat} (h : p < s.length) :
    s.drop p = charAt s p :: s.drop (p + 1) := by
  rw [List.drop_eq_getElem_cons h]
  simp [charAt, List.getD_eq_getElem?_getD, List.getElem?_eq_getElem h]

theorem splitOn_slash_cons (t : List Char) :
    ('/' :: t).splitOn '/' = [] :: t.splitOn '/' := by
  simp [List.splitOn, List.splitOnP_cons]

theorem splitOn_other_cons {c : Char} (hc : c ≠ '/') (t : List Char) :
    (c :: t).splitOn '/' = (t.splitOn '/').modifyHead (List.cons c) := by
  simp [List.splitOn, List.splitOnP_cons, hc]

theorem reference_rest_nil : reference_rest [] = [] := by decide

theorem reference_rest_slash (t : List Char) :
    reference_rest ('/' :: t) = reference_rest t := by
  unfold reference_rest
  rw [splitOn_slash_cons]
  rfl

theorem reference_rest_dotdot : reference_rest ['.', '.'] = [] := by decide

theorem reference_rest_dotdot_slash (t : List Char) :
    reference_rest ('.' :: '.' :: '/' :: t) = reference_rest t := by
  unfold reference_rest
  rw [splitOn_other_cons (by decide), splitOn_other_cons (by decide), splitOn_slash_cons]
  rfl

/-- The first component is empty only for the empty text and for a text that
begins with a slash. -/
theorem splitOn_head_nil {t : List Char} {tl : List (List Char)}
    (h : t.splitOn '/' = [] :: tl) : t = [] ∨ ∃ t', t = '/' :: t' := by
  cases t with
  | nil => exact Or.inl rfl
  | cons d t' =>
    by_cases hd : d = '/'
    · exact Or.inr ⟨t', by rw [hd]⟩
    · rw [splitOn_other_cons hd] at h
      cases hsp : t'.splitOn '/' with
      | nil => exact absurd hsp (List.splitOnP_ne_nil _ _)
      | cons a l =>
        rw [hsp, List.modifyHead_cons] at h
        cases h

/-- A text that does not begin with a slash, nor with `..` followed by a slash
or by the end, is its own rest. -/
theorem reference_rest_keep {c : Char} {t : List Char} (hc : c ≠ '/')
    (h : ¬ (c = '.' ∧ ∃ t₂, t = '.' :: t₂ ∧ (t₂ = [] ∨ ∃ t₃, t₂ = '/' :: t₃))) :
    reference_rest (c :: t) = c :: t := by
  have hfull : ['/'].intercalate ((c :: t).splitOn '/') = c :: t :=
    List.intercalate_splitOn (c :: t) '/'
  unfold reference_rest
  cases hsp : t.splitOn '/' with
  | nil => exact absurd hsp (List.splitOnP_ne_nil _ _)
  | cons a l =>
    have hsplit : (c :: t).splitOn '/' = (c :: a) :: l := by
      rw [splitOn_other_cons hc, hsp, List.modifyHead_cons]
    rw [hsplit] at hfull ⊢
    have hkeep : ¬ ((fun comp : List Char => comp == [] || comp == ['.', '.']) (c :: a)
        = true) := by
      simp only [Bool.or_eq_true, beq_iff_eq]
      rintro (h0 | h2)
      · cases h0
      · apply h
        simp only [List.cons.injEq] at h2
        obtain ⟨rfl, ha⟩ := h2
        refine ⟨rfl, ?_⟩
        cases t with
        | nil =>
          rw [List.splitOn_nil] at hsp
          simp only [List.cons.injEq] at hsp
          rw [← hsp.1] at ha
          cases ha
        | cons d t₂ =>
          by_cases hd : d = '/'
          · subst hd
            rw [splitOn_slash_cons] at hsp
            simp only [List.cons.injEq] at hsp
            rw [← hsp.1] at ha
            cases ha
          · rw [splitOn_other_cons hd] at hsp
            cases hsp₂ : t₂.splitOn '/' with
            | nil => exact absurd hsp₂ (List.splitOnP_ne_nil _ _)
            | cons a₂ l₂ =>
              rw [hsp₂, List.modifyHead_cons] at hsp
              simp only [List.cons.injEq] at hsp
              rw [← hsp.1] at ha
              simp only [List.cons.injEq] at ha
              obtain ⟨rfl, ha₂⟩ := ha
              subst ha₂
              exact ⟨t₂, rfl, splitOn_head_nil hsp₂⟩
    have hdrop := @List.dropWhile_cons_of_neg _
      (fun comp : List Char => comp == [] || comp == ['.', '.']) (c :: a) l hkeep
    rw [hdrop]
    exact hfull

/-- Under the POSIX policy the scan of a C string breaks where the reference
rest begins. -/
theorem skip_prefixes_posix_reference (s : List Char) (hs : IsCStr s) :
    ∀ (fuel p : Nat), p ≤ s.length → s.length - p < fuel →
      ∃ q, skip_prefixes posix s fuel p = some q ∧ q ≤ s.length ∧
        s.drop q = reference_rest (s.drop p) := by
  intro fuel
  induction fuel with
  | zero => intro p _ h; omega
  | succ n ih =>
    intro p hp hf
    rw [skip_prefixes_succ]
    by_cases hlt : p < s.length
    · have hd := drop_of_lt hlt
      by_cases hc : charAt s p = '/'
      · have h1 : posix.ISSLASH (charAt s p) = true := by rw [hc]; rfl
        rw [if_pos h1]
        obtain ⟨q, hq, hql, hqr⟩ := ih (p + 1) (by omega) (by omega)
        refine ⟨q, hq, hql, ?_⟩
        rw [hqr, hd, hc, reference_rest_slash]
      · have h1 : ¬ posix.ISSLASH (charAt s p) = true := by
          simpa [posix] using hc
        rw [if_neg h1]
        by_cases hpat : charAt s p = '.' ∧ charAt s (p + 1) = '.' ∧
            (posix.ISSLASH (charAt s (p + 2)) = true ∨ charAt s (p + 2) = NUL)
        · rw [if_pos hpat]
          obtain ⟨e0, e1, e2⟩ := hpat
          have hlt1 : p + 1 < s.length :=
            lt_of_charAt_ne_nul (by rw [e1]; exact dot_ne_nul)
          have hd1 := drop_of_lt hlt1
          obtain ⟨q, hq, hql, hqr⟩ := ih (p + 2) (by omega) (by omega)
          refine ⟨q, hq, hql, ?_⟩
          rw [hqr, hd, hd1, e0, e1]
          rcases e2 with e2 | e2
          · have e2' : charAt s (p + 2) = '/' := by simpa [posix] using e2
            have hlt2 : p + 2 < s.length :=
              lt_of_charAt_ne_nul (by rw [e2']; decide)
            rw [drop_of_lt hlt2, e2', reference_rest_dotdot_slash, reference_rest_slash]
          · have hle2 : s.length ≤ p + 2 := (charAt_eq_nul_iff hs _).mp e2
            rw [List.drop_eq_nil_iff.mpr hle2, reference_rest_dotdot, reference_rest_nil]
        · rw [if_neg hpat]
          refine ⟨p, rfl, hp, ?_⟩
          rw [hd]
          symm
          apply reference_rest_keep hc
          rintro ⟨e0, t₂, ht, ht₂⟩
          apply hpat
          have hlt1 : p + 1 < s.length := by
            by_contra hn
            rw [List.drop_eq_nil_iff.mpr (not_lt.mp hn)] at ht
            cases ht
          rw [drop_of_lt hlt1] at ht
          simp only [List.cons.injEq] at ht
          refine ⟨e0, ht.1, ?_⟩
          rcases ht₂ with rfl | ⟨t₃, rfl⟩
          · exact Or.inr (drop_eq_nil_charAt ht.2)
          · left
            rw [drop_eq_cons_charAt ht.2]
            rfl
    · have hpe : s.drop p = [] := List.drop_eq_nil_iff.mpr (not_lt.mp hlt)
      have hnul : charAt s p = NUL := charAt_of_le (not_lt.mp hlt)
      have h1 : ¬ posix.ISSLASH (charAt s p) = true := by rw [hnul]; decide
      have h2 : ¬ (charAt s p = '.' ∧ charAt s (p + 1) = '.' ∧
          (posix.ISSLASH (charAt s (p + 2)) = true ∨ charAt s (p + 2) = NUL)) := by
        rintro ⟨h, _⟩
        rw [hnul] at h
        exact dot_ne_nul h.symm
      rw [if_neg h1, if_neg h2]
      refine ⟨p, rfl, hp, ?_⟩
      rw [hpe, reference_rest_nil]

/-! ## Names that are already relative -/

/-- A C string at whose start none of the three patterns matches, stated on
the bytes of the string: the loop breaks at offset 0. -/
theorem stops_zero_of_bytes {P : Platform} {s : List Char} (hs : IsCStr s)
    (hne : s ≠ []) (h1 : ∀ c rest, s = c :: rest → P.ISSLASH c = false)
    (h2 : s ≠ ['.', '.'])
    (h3 : ∀ c rest, s = '.' :: '.' :: c :: rest → P.ISSLASH c = false)
    (h4 : P.FILE_SYSTEM_PREFIX_LEN s = 0) : Stops P s 0 := by
  refine ⟨?_, ?_, by simpa using h4⟩
  · cases s with
    | nil => exact absurd rfl hne
    | cons c rest => simpa [charAt] using h1 c rest rfl
  · rintro ⟨e0, e1, e2⟩
    match s, hs, h2, h3, e0, e1, e2 with
    | [], _, _, _, e0, _, _ => exact dot_ne_nul (by simpa [charAt] using e0.symm)
    | [_], _, _, _, _, e1, _ => exact dot_ne_nul (by simpa [charAt] using e1.symm)
    | [a, b], _, h2, _, e0, e1, _ =>
      simp only [charAt, List.getD_cons_zero, List.getD_cons_succ, zero_add] at e0 e1
      subst e0; subst e1
      exact h2 rfl
    | a :: b :: c :: rest, hs, _, h3, e0, e1, e2 =>
      simp only [charAt, List.getD_cons_zero, List.getD_cons_succ, zero_add] at e0 e1 e2
      subst e0; subst e1
      rcases e2 with e2 | e2
      · rw [h3 c rest rfl] at e2
        exact Bool.noConfusion e2
      · apply hs
        rw [← e2]
        simp

/-! ## The tables along a sequence of calls -/

theorem removed_prefixes_p_iff (T : PrefixTables) :
    removed_prefixes_p T = true ↔ ∃ c y, y ∈ entries (T.get c) := by
  obtain ⟨m, l⟩ := T
  constructor
  · intro h
    simp only [removed_prefixes_p, hash_get_n_entries, Bool.or_eq_true] at h
    rcases h with h | h
    · cases m with
      | none => simp at h
      | some t =>
        cases t with
        | nil => simp at h
        | cons y t' => exact ⟨false, y, by simp [PrefixTables.get, entries]⟩
    · cases l with
      | none => simp at h
      | some t =>
        cases t with
        | nil => simp at h
        | cons y t' => exact ⟨true, y, by simp [PrefixTables.get, entries]⟩
  · rintro ⟨c, y, hy⟩
    simp only [removed_prefixes_p, hash_get_n_entries, Bool.or_eq_true]
    cases c
    · left
      cases m with
      | none => simp [PrefixTables.get, entries] at hy
      | some t =>
        cases t with
        | nil => simp [PrefixTables.get, entries] at hy
        | cons y t' => simp
    · right
      cases l with
      | none => simp [PrefixTables.get, entries] at hy
      | some t =>
        cases t with
        | nil => simp [PrefixTables.get, entries] at hy
        | cons y t' => simp

/-- The entries of the tables after a sequence of calls. -/
theorem run_entries {P : Platform} (hP : P.Sane) :
    ∀ (calls : List Call) (T : PrefixTables),
      ∃ T' ws, run P T calls = some (T', ws) ∧
        ∀ c y, y ∈ entries (T'.get c) ↔
          y ∈ entries (T.get c) ∨ ∃ call ∈ calls, strips P call c y := by
  intro calls
  induction calls with
  | nil =>
    intro T
    exact ⟨T, [], rfl, by simp⟩
  | cons call rest ih =>
    intro T
    obtain ⟨o, ho, _, _, hent, _⟩ := step_spec hP T call
    obtain ⟨T', ws, hr, hrest⟩ := ih o.tables
    refine ⟨T', o.warnings :: ws, run_cons_eq P T call rest o ho T' ws hr, ?_⟩
    intro c y
    rw [hrest c y, hent c y]
    constructor
    · rintro ((h | h) | ⟨call', hm, hs⟩)
      · exact Or.inl h
      · exact Or.inr ⟨call, List.mem_cons_self _ _, h⟩
      · exact Or.inr ⟨call', List.mem_cons_of_mem _ hm, hs⟩
    · rintro (h | ⟨call', hm, hs⟩)
      · exact Or.inl (Or.inl h)
      · rw [List.mem_cons] at hm
        rcases hm with rfl | hm
        · exact Or.inl (Or.inr hs)
        · exact Or.inr ⟨call', hm, hs⟩

/-- The tables after the prefix-removal branch: as before, or with the skipped
text appended to the table of the category. -/
theorem offer_tables (T : PrefixTables) (b : Bool) (x : List Char) :
    (offer T b x).1 = T ∨
      (x ≠ [] ∧ x ∉ entries (T.get b) ∧
        (offer T b x).1 = T.set b (some (entries (T.get b) ++ [x]))) := by
  unfold offer
  by_cases h0 : x = []
  · simp [h0]
  · by_cases hm : x ∈ entries (T.get b)
    · simp [h0, hm]
    · right
      simp [h0, hm]

/-- One iteration of the loop, with the conditions as propositions. -/
theorem loop_step_eq (P : Platform) (s : List Char) (p : Nat) :
    loop_step P s p =
      if P.ISSLASH (charAt s p) = true then some (p + 1)
      else if charAt s p = '.' ∧ charAt s (p + 1) = '.' ∧
          (P.ISSLASH (charAt s (p + 2)) = true ∨ charAt s (p + 2) = NUL) then
        some (p + 2)
      else if P.FILE_SYSTEM_PREFIX_LEN (s.drop p) = 0 then none
      else some (p + P.FILE_SYSTEM_PREFIX_LEN (s.drop p)) := by
  simp only [loop_step, Bool.and_eq_true, Bool.or_eq_true, beq_iff_eq, and_assoc]

/-! ## Names skipped as a whole, and names of which something remains -/

/-- A name whose components are all empty or `..` has no reference rest. -/
theorem reference_rest_of_components {s : List Char}
    (h : ∀ comp ∈ s.splitOn '/', comp = [] ∨ comp = ['.', '.']) :
    reference_rest s = [] := by
  unfold reference_rest
  have hd : (s.splitOn '/').dropWhile (fun comp => comp == [] || comp == ['.', '.']) = [] := by
    rw [List.dropWhile_eq_nil_iff]
    intro comp hc
    rcases h comp hc with rfl | rfl <;> decide
  rw [hd]
  rfl

/-- The outcome of a call whose scan skips the whole name, which is not
empty. -/
theorem outcome_of_all_skipped {P : Platform} (hP : P.Sane) (T : PrefixTables)
    {s : List Char} (hne : s ≠ []) (b : Bool)
    (hall : skip_prefixes P s (s.length + 1) 0 = some s.length) :
    ∃ o, safer_name_suffix P T s b false = some o ∧ o.result = ['.'] ∧
      (∀ c, empty_warning c ∉ o.warnings) ∧
      o.warnings = (if s ∈ entries (T.get b) then [] else [removed_warning b s]) := by
  obtain ⟨p, hp, hle, _, hcall⟩ := safer_name_suffix_false hP T s b
  have hpp : p = s.length := Option.some.inj (hp.symm.trans hall)
  subst hpp
  have hlen : s.length ≠ 0 := fun h => hne (List.length_eq_zero.mp h)
  have hw : (finish_part s b s.length (offer T b (s.take s.length)).1
      (offer T b (s.take s.length)).2).warnings
      = (if s ∈ entries (T.get b) then [] else [removed_warning b s]) := by
    rw [finish_part_warnings, offer_warnings, List.take_length]
    simp only [hlen, and_false, if_false, hne, ne_eq, not_false_eq_true, true_and]
    by_cases hm : s ∈ entries (T.get b) <;> simp [hm]
  refine ⟨_, hcall, ?_, ?_, hw⟩
  · rw [finish_part_result, charAt_of_le (le_refl _)]; simp
  · intro c
    rw [hw]
    split
    · simp
    · simp only [List.mem_singleton]
      exact fun h => removed_ne_empty _ _ _ h.symm

/-- The outcome of a call of whose name, a C string, something remains after
the scan. -/
theorem outcome_of_rest {P : Platform} (hP : P.Sane) (T : PrefixTables) {s : List Char}
    (hs : IsCStr s) (b : Bool) {p : Nat}
    (hp : skip_prefixes P s (s.length + 1) 0 = some p) (hrest : s.drop p ≠ []) :
    ∃ o, safer_name_suffix P T s b false = some o ∧ o.result = s.drop p ∧
      (∀ c, empty_warning c ∉ o.warnings) ∧
      ∀ w ∈ o.warnings, s.take p ≠ [] ∧ w = removed_warning b (s.take p) := by
  obtain ⟨q, hq, hle, _, hcall⟩ := safer_name_suffix_false hP T s b
  have hpq : q = p := Option.some.inj (hq.symm.trans hp)
  subst hpq
  have hne : ¬ charAt s q = NUL := by
    rw [charAt_eq_nul_iff hs, ← List.drop_eq_nil_iff]
    exact hrest
  have hw : (finish_part s b q (offer T b (s.take q)).1 (offer T b (s.take q)).2).warnings
      = (if s.take q ≠ [] ∧ s.take q ∉ entries (T.get b) then [removed_warning b (s.take q)]
        else []) := by
    rw [finish_part_warnings, offer_warnings]
    simp [hne]
  refine ⟨_, hcall, ?_, ?_, ?_⟩
  · rw [finish_part_result, if_neg hne]
  · intro c
    rw [hw]
    split
    · simp only [List.mem_singleton]
      exact fun h => removed_ne_empty _ _ _ h.symm
    · simp
  · intro w hmem
    rw [hw] at hmem
    split at hmem
    · rename_i h
      rw [List.mem_singleton] at hmem
      exact ⟨h.1, hmem⟩
    · simp at hmem

/-! ## The claims -/

/-- C1: with `absolute_names` false the returned name is safely relative: it
does not begin with a separator, it does not begin with `..` followed by a
separator or by the end of the string, and it has no platform prefix. This
holds for every platform whose macros keep the scan inside the string, treat
the dot as no separator and report no platform prefix on the name `.`; the
POSIX policy is one. -/
theorem safer_name_suffix_safely_relative (P : Platform) (hP : P.Sane)
    (hdot : P.ISSLASH '.' = false) (hlen : P.FILE_SYSTEM_PREFIX_LEN ['.'] = 0)
    (T : PrefixTables) (file_name : List Char) (link_target : Bool) :
    ∃ o, safer_name_suffix P T file_name link_target false = some o ∧
      (∀ c rest, o.result = c :: rest → P.ISSLASH c = false) ∧
      o.result ≠ ['.', '.'] ∧
      (∀ c rest, o.result = '.' :: '.' :: c :: rest → P.ISSLASH c = false) ∧
      P.FILE_SYSTEM_PREFIX_LEN o.result = 0 := by
  obtain ⟨p, _, _, hstop, hcall⟩ := safer_name_suffix_false hP T file_name link_target
  refine ⟨_, hcall, ?_⟩
  unfold finish_part
  by_cases h0 : charAt file_name p = NUL
  · simp only [h0, beq_self_eq_true, if_true]
    refine ⟨?_, by decide, ?_, hlen⟩
    · intro c rest h
      cases h
      exact hdot
    · intro c rest h
      cases h
  · have hb : (charAt file_name p == NUL) = false := by simpa using h0
    simp only [hb, Bool.false_eq_true, if_false]
    obtain ⟨h1, h2, h3⟩ := hstop
    refine ⟨?_, ?_, ?_, h3⟩
    · intro c rest h
      rw [← drop_eq_cons_charAt h]; exact h1
    · intro h
      apply h2
      have e0 := charAt_drop file_name p 0
      have e1 := charAt_drop file_name p 1
      have e2 := charAt_drop file_name p 2
      rw [h] at e0 e1 e2
      refine ⟨?_, ?_, Or.inr ?_⟩
      · simpa [charAt] using e0.symm
      · simpa [charAt] using e1.symm
      · simpa [charAt] using e2.symm
    · intro c rest h
      have e0 := charAt_drop file_name p 0
      have e1 := charAt_drop file_name p 1
      have e2 := charAt_drop file_name p 2
      rw [h] at e0 e1 e2
      have e0' : charAt file_name p = '.' := by simpa [charAt] using e0.symm
      have e1' : charAt file_name (p + 1) = '.' := by simpa [charAt] using e1.symm
      have e2' : charAt file_name (p + 2) = c := by simpa [charAt] using e2.symm
      by_contra hc
      apply h2
      refine ⟨e0', e1', Or.inl ?_⟩
      rw [e2']
      simpa using hc

/-- Witness of C1 at the POSIX policy, on the name `/../..//x`. -/
theorem safer_name_suffix_safely_relative_witness :
    posix.Sane ∧ posix.ISSLASH '.' = false ∧ posix.FILE_SYSTEM_PREFIX_LEN ['.'] = 0 ∧
    ∃ o, safer_name_suffix posix PrefixTables.init "/../..//x".toList true false = some o ∧
      (∀ c rest, o.result = c :: rest → posix.ISSLASH c = false) ∧
      o.result ≠ ['.', '.'] ∧
      (∀ c rest, o.result = '.' :: '.' :: c :: rest → posix.ISSLASH c = false) ∧
      posix.FILE_SYSTEM_PREFIX_LEN o.result = 0 :=
  ⟨posix_sane, by decide, rfl,
    safer_name_suffix_safely_relative posix posix_sane (by decide) rfl
      PrefixTables.init "/../..//x".toList true⟩

/-- C2: under the POSIX policy, with `absolute_names` false, the call on a C
string returns the name given by the reference definition: the path is split
at the slashes, the leading components that are empty or exactly `..` are
left out, and the rest is returned, or `.` when nothing remains; the bytes
skipped by the scan are those before the reference rest. For
`../../etc/passwd` from the initial tables the returned name is `etc/passwd`
and the only warning is the prefix-removal warning for member names with the
text `../../`. -/
theorem safer_name_suffix_refines_reference :
    (∀ (T : PrefixTables) (file_name : List Char) (link_target : Bool),
      IsCStr file_name →
      ∃ o, safer_name_suffix posix T file_name link_target false = some o ∧
        o.result = reference_result file_name ∧
        ∃ skipped, file_name = skipped ++ reference_rest file_name ∧
          skip_prefixes posix file_name (file_name.length + 1) 0 = some skipped.length) ∧
    safer_name_suffix posix PrefixTables.init "../../etc/passwd".toList false false =
      some ⟨"etc/passwd".toList, ⟨some ["../../".toList], none⟩,
        [⟨0, "Removing leading '%s' from member names".toList, ["../../".toList]⟩]⟩ := by
  refine ⟨?_, by decide⟩
  intro T file_name link_target hs
  obtain ⟨p, hp, hle, _, hcall⟩ := safer_name_suffix_false posix_sane T file_name link_target
  obtain ⟨q, hq, _, hqr⟩ := skip_prefixes_posix_reference file_name hs
    (file_name.length + 1) 0 (Nat.zero_le _) (by omega)
  have hpq : q = p := Option.some.inj (hq.symm.trans hp)
  subst hpq
  rw [List.drop_zero] at hqr
  refine ⟨_, hcall, ?_, file_name.take q, ?_, ?_⟩
  · rw [finish_part_result, reference_result, ← hqr]
    have hnul : charAt file_name q = NUL ↔ file_name.drop q = [] := by
      rw [charAt_eq_nul_iff hs, List.drop_eq_nil_iff]
    by_cases h0 : file_name.drop q = []
    · rw [if_pos (hnul.mpr h0), if_pos h0]
    · rw [if_neg (fun h => h0 (hnul.mp h)), if_neg h0]
  · rw [← hqr, List.take_append_drop]
  · rw [List.length_take, Nat.min_eq_left hle]
    exact hp

/-- Witness of C2: the name `/..//../usr/../lib/` as a hard link target. -/
theorem safer_name_suffix_refines_reference_witness :
    IsCStr "/..//../usr/../lib/".toList ∧
    ∃ o, safer_name_suffix posix PrefixTables.init "/..//../usr/../lib/".toList true false
        = some o ∧
      o.result = reference_result "/..//../usr/../lib/".toList ∧
      ∃ skipped, "/..//../usr/../lib/".toList
          = skipped ++ reference_rest "/..//../usr/../lib/".toList ∧
        skip_prefixes posix "/..//../usr/../lib/".toList
          ("/..//../usr/../lib/".toList.length + 1) 0 = some skipped.length :=
  ⟨by decide,
    safer_name_suffix_refines_reference.1 PrefixTables.init "/..//../usr/../lib/".toList
      true (by decide)⟩

/-- C3: with `absolute_names` false and sane platform macros, the file name
splits as the skipped bytes followed by the rest: the scan breaks at the
length of the skipped part; that part, when not empty, is the text copied and
inserted into the table of the category (nothing is inserted when it is
empty); the returned name is the rest when the rest is not empty and `.` when
it is empty, so that the returned name differs from the rest exactly when the
rest is empty. -/
theorem safer_name_suffix_split (P : Platform) (hP : P.Sane) (T : PrefixTables)
    (file_name : List Char) (hs : IsCStr file_name) (link_target : Bool) :
    ∃ (skipped rest : List Char) (o : Outcome),
      file_name = skipped ++ rest ∧
      skip_prefixes P file_name (file_name.length + 1) 0 = some skipped.length ∧
      safer_name_suffix P T file_name link_target false = some o ∧
      (rest ≠ [] → o.result = rest) ∧
      (rest = [] → o.result = ['.']) ∧
      (o.result ≠ rest ↔ rest = []) ∧
      (skipped = [] → o.tables = T) ∧
      (skipped ≠ [] →
        ximemdup0 file_name skipped.length = skipped ∧
        o.tables = T.set link_target
          ( hash_string_insert_prefix (T.get link_target) file_name skipped.length).1) := by
  obtain ⟨p, hp, hle, _, hcall⟩ := safer_name_suffix_false hP T file_name link_target
  have hlen : (file_name.take p).length = p := by
    rw [List.length_take]; omega
  have hnul : charAt file_name p = NUL ↔ file_name.drop p = [] := by
    rw [charAt_eq_nul_iff hs, List.drop_eq_nil_iff]
  refine ⟨file_name.take p, file_name.drop p, _, (List.take_append_drop p file_name).symm,
    by rw [hlen]; exact hp, hcall, ?_, ?_, ?_, ?_, ?_⟩
  · intro hne
    have : ¬ charAt file_name p = NUL := fun h => hne (hnul.mp h)
    simp [finish_part, this]
  · intro he
    simp [finish_part, hnul.mpr he]
  · constructor
    · intro hne
      by_contra hr
      apply hne
      have : ¬ charAt file_name p = NUL := fun h => hr (hnul.mp h)
      simp [finish_part, this]
    · intro he
      rw [he]
      simp [finish_part, hnul.mpr he]
  · intro he
    have : (finish_part file_name link_target p (offer T link_target (file_name.take p)).1
        (offer T link_target (file_name.take p)).2).tables
        = (offer T link_target (file_name.take p)).1 := by
      unfold finish_part; split <;> rfl
    rw [this, he]
    simp [offer]
  · intro hne
    have ht : (finish_part file_name link_target p (offer T link_target (file_name.take p)).1
        (offer T link_target (file_name.take p)).2).tables
        = (offer T link_target (file_name.take p)).1 := by
      unfold finish_part; split <;> rfl
    refine ⟨by rw [hlen]; rfl, ?_⟩
    rw [ht, hlen, hash_string_insert_prefix_eq]
    unfold offer
    by_cases hm : file_name.take p ∈ entries (T.get link_target)
    · simp only [hne, hm, if_true, if_false, set_get_entries hm]
    · simp only [hne, hm, if_false]

/-- Witness of C3 at the policy with drive specifiers, on the name
`c:/../x`. -/
theorem safer_name_suffix_split_witness :
    drive.Sane ∧ IsCStr "c:/../x".toList ∧
    ∃ (skipped rest : List Char) (o : Outcome),
      "c:/../x".toList = skipped ++ rest ∧
      skip_prefixes drive "c:/../x".toList ("c:/../x".toList.length + 1) 0
        = some skipped.length ∧
      safer_name_suffix drive PrefixTables.init "c:/../x".toList false false = some o ∧
      (rest ≠ [] → o.result = rest) ∧
      (rest = [] → o.result = ['.']) ∧
      (o.result ≠ rest ↔ rest = []) ∧
      (skipped = [] → o.tables = PrefixTables.init) ∧
      (skipped ≠ [] →
        ximemdup0 "c:/../x".toList skipped.length = skipped ∧
        o.tables = PrefixTables.init.set false
          ( hash_string_insert_prefix (PrefixTables.init.get false) "c:/../x".toList
            skipped.length).1) :=
  ⟨drive_sane, by decide,
    safer_name_suffix_split drive drive_sane PrefixTables.init "c:/../x".toList
      (by decide) false⟩

/-- C4: with sane platform macros, every call of `safer_name_suffix` returns,
whatever the name, the flags and the tables, and the returned name is not
empty. -/
theorem safer_name_suffix_returns_nonempty (P : Platform) (hP : P.Sane)
    (T : PrefixTables) (file_name : List Char) (link_target absolute_names : Bool) :
    ∃ o, safer_name_suffix P T file_name link_target absolute_names = some o ∧
      o.result ≠ [] := by
  have key : ∀ (p : Nat) (T' : PrefixTables) (w : List Warning),
      (finish_part file_name link_target p T' w).result ≠ [] := by
    intro p T' w
    unfold finish_part
    by_cases h0 : charAt file_name p = NUL
    · simp [h0]
    · have hb : (charAt file_name p == NUL) = false := by simpa using h0
      simp only [hb, Bool.false_eq_true, if_false]
      exact drop_ne_nil_of_charAt h0
  cases absolute_names
  · obtain ⟨p, _, _, _, hcall⟩ := safer_name_suffix_false hP T file_name link_target
    exact ⟨_, hcall, key _ _ _⟩
  · exact ⟨_, safer_name_suffix_true P T file_name link_target, key _ _ _⟩

/-- Witness of C4 at the POSIX policy, on the name `..` as a hard link
target. -/
theorem safer_name_suffix_returns_nonempty_witness :
    posix.Sane ∧
    ∃ o, safer_name_suffix posix PrefixTables.init "..".toList true false = some o ∧
      o.result ≠ [] :=
  ⟨posix_sane,
    safer_name_suffix_returns_nonempty posix posix_sane PrefixTables.init "..".toList
      true false⟩

/-- C5: with `absolute_names` true there is no scan: for every platform,
name (a C string), category and tables the call returns, with the same
outcome under every other platform; the returned name is the file name when
that is not empty and `.` otherwise; the tables are unchanged; no
prefix-removal warning is issued; and for a name that is not empty no warning
at all is issued. -/
theorem safer_name_suffix_absolute (P : Platform) (T : PrefixTables)
    (file_name : List Char) (hs : IsCStr file_name) (link_target : Bool) :
    ∃ o, safer_name_suffix P T file_name link_target true = some o ∧
      (∀ Q : Platform, safer_name_suffix Q T file_name link_target true = some o) ∧
      o.result = (if file_name = [] then ['.'] else file_name) ∧
      o.tables = T ∧
      (∀ c x, removed_warning c x ∉ o.warnings) ∧
      (file_name ≠ [] → o.warnings = []) := by
  have hnul : charAt file_name 0 = NUL ↔ file_name = [] := by
    rw [charAt_eq_nul_iff hs]; simp
  refine ⟨_, safer_name_suffix_true P T file_name link_target,
    fun Q => safer_name_suffix_true Q T file_name link_target, ?_, ?_, ?_, ?_⟩
  · rw [finish_part_result]; simp [hnul]
  · exact finish_part_tables _ _ _ _ _
  · intro c x
    rw [finish_part_warnings]
    split
    · simp [removed_ne_empty]
    · simp
  · intro hne
    rw [finish_part_warnings]
    simp [hnul, hne]

/-- Witness of C5: the name `/abs/path` is returned as it is, without a
warning and with the tables unchanged. -/
theorem safer_name_suffix_absolute_witness :
    IsCStr "/abs/path".toList ∧
    ∃ o, safer_name_suffix posix PrefixTables.init "/abs/path".toList false true = some o ∧
      (∀ Q : Platform,
        safer_name_suffix Q PrefixTables.init "/abs/path".toList false true = some o) ∧
      o.result = (if "/abs/path".toList = [] then ['.'] else "/abs/path".toList) ∧
      o.tables = PrefixTables.init ∧
      (∀ c x, removed_warning c x ∉ o.warnings) ∧
      ("/abs/path".toList ≠ [] → o.warnings = []) :=
  ⟨by decide,
    safer_name_suffix_absolute posix PrefixTables.init "/abs/path".toList (by decide) false⟩

/-- C6: under the POSIX policy the returned name is a fixed point: a second
call with `absolute_names` false on the name returned by a first one returns
that name again, whatever the categories and the tables of the two calls. -/
theorem safer_name_suffix_idempotent (T₁ T₂ : PrefixTables) (file_name : List Char)
    (b₁ b₂ : Bool) :
    ∃ o₁ o₂, safer_name_suffix posix T₁ file_name b₁ false = some o₁ ∧
      safer_name_suffix posix T₂ o₁.result b₂ false = some o₂ ∧
      o₂.result = o₁.result := by
  obtain ⟨p, _, _, hstop, hcall⟩ := safer_name_suffix_false posix_sane T₁ file_name b₁
  have hfix : ∃ o₂, safer_name_suffix posix T₂
      (finish_part file_name b₁ p (offer T₁ b₁ (file_name.take p)).1
        (offer T₁ b₁ (file_name.take p)).2).result b₂ false = some o₂ ∧
      o₂.result = (finish_part file_name b₁ p (offer T₁ b₁ (file_name.take p)).1
        (offer T₁ b₁ (file_name.take p)).2).result := by
    rw [finish_part_result]
    by_cases h0 : charAt file_name p = NUL
    · simp only [h0, if_true]
      have hs : Stops posix ['.'] 0 := by
        refine ⟨by decide, by decide, rfl⟩
      obtain ⟨o, ho, hr, _⟩ := result_of_stops hs (by decide) T₂ b₂
      exact ⟨o, ho, hr⟩
    · simp only [h0, if_false]
      have hne : charAt (file_name.drop p) 0 ≠ NUL := by
        rw [charAt_drop]; exact h0
      obtain ⟨o, ho, hr, _⟩ := result_of_stops (stops_drop hstop) hne T₂ b₂
      exact ⟨o, ho, hr⟩
  obtain ⟨o₂, h2, hr⟩ := hfix
  exact ⟨_, o₂, hcall, h2, hr⟩

/-- C7: with sane platform macros, every finite sequence of calls from the
initial tables runs to its end, and for every category `c` and text `x` the
prefix-removal warning of `c` with text `x` is issued once in all when some
call of the sequence strips exactly `x` in category `c`, and never otherwise;
it is issued by the first such call; and every warning issued has severity
0. Calling twice on `../x` as a member name issues the warning with text
`../` in the first call only. -/
theorem removed_warning_exactly_once :
    (∀ (P : Platform), P.Sane → ∀ (calls : List Call),
      ∃ T ws, run P PrefixTables.init calls = some (T, ws) ∧ ws.length = calls.length ∧
        (∀ w ∈ ws.flatten, w.errnum = 0) ∧
        ∀ c x,
          ((∃ call ∈ calls, strips P call c x) →
            ws.flatten.count (removed_warning c x) = 1) ∧
          ((¬ ∃ call ∈ calls, strips P call c x) →
            ws.flatten.count (removed_warning c x) = 0) ∧
          (∀ (i : Nat) (call : Call), calls[i]? = some call → strips P call c x →
            (∀ (j : Nat) (call' : Call), j < i → calls[j]? = some call' → ¬ strips P call' c x) →
            ∃ w : List Warning, ws[i]? = some w ∧ removed_warning c x ∈ w)) ∧
    run posix PrefixTables.init
        [⟨"../x".toList, false, false⟩, ⟨"../x".toList, false, false⟩] =
      some (⟨some ["../".toList], none⟩,
        [[⟨0, "Removing leading '%s' from member names".toList, ["../".toList]⟩], []]) := by
  refine ⟨?_, by decide⟩
  intro P hP calls
  obtain ⟨T, ws, hr, hlen, hsev, hall⟩ := run_spec hP calls PrefixTables.init
  refine ⟨T, ws, hr, hlen, hsev, fun c x => ?_⟩
  have hx : x ∉ entries (PrefixTables.init.get c) := by
    cases c <;> simp [PrefixTables.init, PrefixTables.get, entries]
  exact (hall c x).2 hx

/-- Witness of C7 at the POSIX policy: three calls, of which the first and
the third strip `../` from a member name. -/
theorem removed_warning_exactly_once_witness :
    posix.Sane ∧
    ∃ T ws, run posix PrefixTables.init
        [⟨"../x".toList, false, false⟩, ⟨"y".toList, false, false⟩,
         ⟨"../z".toList, false, false⟩] = some (T, ws) ∧
      ws.length = [(⟨"../x".toList, false, false⟩ : Call), ⟨"y".toList, false, false⟩,
         ⟨"../z".toList, false, false⟩].length ∧
      (∀ w ∈ ws.flatten, w.errnum = 0) ∧
      ∀ c x,
        ((∃ call ∈ [(⟨"../x".toList, false, false⟩ : Call), ⟨"y".toList, false, false⟩,
            ⟨"../z".toList, false, false⟩], strips posix call c x) →
          ws.flatten.count (removed_warning c x) = 1) ∧
        ((¬ ∃ call ∈ [(⟨"../x".toList, false, false⟩ : Call), ⟨"y".toList, false, false⟩,
            ⟨"../z".toList, false, false⟩], strips posix call c x) →
          ws.flatten.count (removed_warning c x) = 0) ∧
        (∀ (i : Nat) (call : Call), [(⟨"../x".toList, false, false⟩ : Call), ⟨"y".toList, false, false⟩,
            ⟨"../z".toList, false, false⟩][i]? = some call → strips posix call c x →
          (∀ (j : Nat) (call' : Call), j < i → [(⟨"../x".toList, false, false⟩ : Call),
            ⟨"y".toList, false, false⟩, ⟨"../z".toList, false, false⟩][j]? = some call' →
            ¬ strips posix call' c x) →
          ∃ w : List Warning, ws[i]? = some w ∧ removed_warning c x ∈ w) :=
  ⟨posix_sane,
    removed_warning_exactly_once.1 posix posix_sane
      [⟨"../x".toList, false, false⟩, ⟨"y".toList, false, false⟩,
       ⟨"../z".toList, false, false⟩]⟩

/-- C8: a call for category `b` leaves the table of the other category as it
was, and depends on the tables only through the table of category `b`: two
calls with the same arguments from tables that agree on category `b` return
the same name, issue the same warnings and leave the same table for `b`.
From the initial tables, `../a` as a member name and then `../b` as a hard
link target each issue one warning with the text `../`, the first with the
member-name template and the second with the hard-link template. -/
theorem safer_name_suffix_category_independent :
    (∀ (P : Platform), P.Sane → ∀ (T T' : PrefixTables) (file_name : List Char)
        (b absolute_names : Bool),
      ∃ o, safer_name_suffix P T file_name b absolute_names = some o ∧
        o.tables.get (!b) = T.get (!b) ∧
        (T'.get b = T.get b →
          ∃ o', safer_name_suffix P T' file_name b absolute_names = some o' ∧
            o'.result = o.result ∧ o'.warnings = o.warnings ∧
            o'.tables.get b = o.tables.get b)) ∧
    run posix PrefixTables.init
        [⟨"../a".toList, false, false⟩, ⟨"../b".toList, true, false⟩] =
      some (⟨some ["../".toList], some ["../".toList]⟩,
        [[⟨0, "Removing leading '%s' from member names".toList, ["../".toList]⟩],
         [⟨0, "Removing leading '%s' from hard link targets".toList, ["../".toList]⟩]]) := by
  refine ⟨?_, by decide⟩
  intro P hP T T' file_name b absolute_names
  cases absolute_names
  · obtain ⟨p, hp, hle, _, hcall⟩ := safer_name_suffix_false hP T file_name b
    obtain ⟨p', hp', _, _, hcall'⟩ := safer_name_suffix_false hP T' file_name b
    have hpp : p' = p := Option.some.inj (hp'.symm.trans hp)
    subst hpp
    refine ⟨_, hcall, ?_, ?_⟩
    · rw [finish_part_tables, offer_get_other]
    · intro hT
      obtain ⟨hw, ht⟩ := offer_congr hT (file_name.take p')
      refine ⟨_, hcall', ?_, ?_, ?_⟩
      · rw [finish_part_result, finish_part_result]
      · rw [finish_part_warnings, finish_part_warnings, hw]
      · rw [finish_part_tables, finish_part_tables, ht]
  · refine ⟨_, safer_name_suffix_true P T file_name b, ?_, ?_⟩
    · rw [finish_part_tables]
    · intro hT
      refine ⟨_, safer_name_suffix_true P T' file_name b, ?_, ?_, ?_⟩
      · rw [finish_part_result, finish_part_result]
      · rw [finish_part_warnings, finish_part_warnings]
      · rw [finish_part_tables, finish_part_tables, hT]

/-- Witness of C8: after `../a` was stripped as a member name, the call on
`../b` as a hard link target does what it does from the initial tables. -/
theorem safer_name_suffix_category_independent_witness :
    posix.Sane ∧
    ∃ o, safer_name_suffix posix PrefixTables.init "../b".toList true false = some o ∧
      o.tables.get (!true) = PrefixTables.init.get (!true) ∧
      ((PrefixTables.mk (some ["../".toList]) none).get true = PrefixTables.init.get true →
        ∃ o', safer_name_suffix posix (PrefixTables.mk (some ["../".toList]) none)
            "../b".toList true false = some o' ∧
          o'.result = o.result ∧ o'.warnings = o.warnings ∧
          o'.tables.get true = o.tables.get true) :=
  ⟨posix_sane,
    safer_name_suffix_category_independent.1 posix posix_sane PrefixTables.init
      (PrefixTables.mk (some ["../".toList]) none) "../b".toList true false⟩

/-- C9: with `absolute_names` false and sane platform macros, for a C string
`file_name`, the empty-name warning of a category is issued exactly when the
category is that of the call and `file_name` is empty. For the empty name
the scan breaks at offset 0, the returned name is `.`, the empty-name warning
of the category is the only warning, and the tables are unchanged. -/
theorem safer_name_suffix_empty_warning (P : Platform) (hP : P.Sane) (T : PrefixTables)
    (file_name : List Char) (hs : IsCStr file_name) (link_target : Bool) :
    ∃ o, safer_name_suffix P T file_name link_target false = some o ∧
      (∀ c, empty_warning c ∈ o.warnings ↔ (c = link_target ∧ file_name = [])) ∧
      (file_name = [] →
        skip_prefixes P file_name (file_name.length + 1) 0 = some 0 ∧
        o.result = ['.'] ∧ o.warnings = [empty_warning link_target] ∧ o.tables = T) := by
  obtain ⟨p, hp, hle, _, hcall⟩ := safer_name_suffix_false hP T file_name link_target
  have hnul : charAt file_name 0 = NUL ↔ file_name = [] := by
    rw [charAt_eq_nul_iff hs]; simp
  have hoff : ∀ c, empty_warning c ∉ (offer T link_target (file_name.take p)).2 := by
    intro c
    rw [offer_warnings]
    split
    · simp only [List.mem_singleton]
      exact fun h => removed_ne_empty _ _ _ h.symm
    · simp
  refine ⟨_, hcall, ?_, ?_⟩
  · intro c
    rw [finish_part_warnings]
    constructor
    · intro hmem
      split at hmem
      · rename_i hc
        rw [List.mem_append] at hmem
        rcases hmem with hmem | hmem
        · exact absurd hmem (hoff c)
        · rw [List.mem_singleton, empty_warning_inj] at hmem
          obtain ⟨h1, h2⟩ := hc
          subst h2
          exact ⟨hmem, hnul.mp h1⟩
      · exact absurd hmem (hoff c)
    · rintro ⟨rfl, he⟩
      subst he
      have hp0 : p = 0 := by simpa using hle
      subst hp0
      simp [charAt]
  · intro he
    subst he
    have hp0 : p = 0 := by simpa using hle
    subst hp0
    refine ⟨hp, ?_, ?_, ?_⟩
    · simp [finish_part_result, charAt]
    · simp [finish_part_warnings, charAt, offer]
    · simp [finish_part_tables, offer]

/-- Witness of C9: the empty name as a hard link target, after a prefix was
stripped in that category. -/
theorem safer_name_suffix_empty_warning_witness :
    posix.Sane ∧ IsCStr ([] : List Char) ∧
    ∃ o, safer_name_suffix posix (PrefixTables.mk none (some ["../".toList])) [] true false
        = some o ∧
      (∀ c, empty_warning c ∈ o.warnings ↔ (c = true ∧ ([] : List Char) = [])) ∧
      (([] : List Char) = [] →
        skip_prefixes posix [] (([] : List Char).length + 1) 0 = some 0 ∧
        o.result = ['.'] ∧ o.warnings = [empty_warning true] ∧
        o.tables = PrefixTables.mk none (some ["../".toList])) :=
  ⟨posix_sane, by decide,
    safer_name_suffix_empty_warning posix posix_sane
      (PrefixTables.mk none (some ["../".toList])) [] (by decide) true⟩

/-- C10, as stated, fails on the name `////`: from the initial tables the call
returns `.`, and its only warning is the prefix-removal warning with the text
`////`; no empty-name warning is issued. -/
theorem separators_only_counterexample :
    safer_name_suffix posix PrefixTables.init "////".toList false false =
      some ⟨['.'], ⟨some ["////".toList], none⟩,
        [⟨0, "Removing leading '%s' from member names".toList, ["////".toList]⟩]⟩ ∧
    ¬ ∃ o, safer_name_suffix posix PrefixTables.init "////".toList false false = some o ∧
      (empty_warning false ∈ o.warnings ∨ empty_warning true ∈ o.warnings) := by
  decide

/-- C10, amended: with `absolute_names` false and sane platform macros, for a
name that is not empty and consists of separators only, the whole name is
skipped, the returned name is `.`, no empty-name warning is issued, and the
name is offered to the table of the category: the prefix-removal warning with
the whole name as text is issued when the name is not yet an entry of that
table, and no warning at all otherwise. -/
theorem safer_name_suffix_separators_only (P : Platform) (hP : P.Sane)
    (T : PrefixTables) (file_name : List Char) (hne : file_name ≠ [])
    (hsep : ∀ c ∈ file_name, P.ISSLASH c = true) (link_target : Bool) :
    ∃ o, safer_name_suffix P T file_name link_target false = some o ∧
      skip_prefixes P file_name (file_name.length + 1) 0 = some file_name.length ∧
      o.result = ['.'] ∧
      (∀ c, empty_warning c ∉ o.warnings) ∧
      o.warnings = (if file_name ∈ entries (T.get link_target) then []
        else [removed_warning link_target file_name]) ∧
      file_name ∈ entries (o.tables.get link_target) := by
  obtain ⟨p, hp, hle, _, hcall⟩ := safer_name_suffix_false hP T file_name link_target
  have hall := skip_prefixes_all_slash hP file_name hsep (file_name.length + 1) 0
    (Nat.zero_le _) (by omega)
  have hpp : p = file_name.length := Option.some.inj (hp.symm.trans hall)
  subst hpp
  have hlen : file_name.length ≠ 0 := by
    intro h; exact hne (List.length_eq_zero.mp h)
  have hw : (finish_part file_name link_target file_name.length
      (offer T link_target (file_name.take file_name.length)).1
      (offer T link_target (file_name.take file_name.length)).2).warnings
      = (if file_name ∈ entries (T.get link_target) then []
        else [removed_warning link_target file_name]) := by
    rw [finish_part_warnings, offer_warnings, List.take_length]
    simp only [hlen, and_false, if_false, hne, ne_eq, not_false_eq_true, true_and]
    by_cases hm : file_name ∈ entries (T.get link_target) <;> simp [hm]
  refine ⟨_, hcall, hall, ?_, ?_, hw, ?_⟩
  · rw [finish_part_result, charAt_of_le (le_refl _)]; simp
  · intro c
    rw [hw]
    split
    · simp
    · simp only [List.mem_singleton]
      exact fun h => removed_ne_empty _ _ _ h.symm
  · rw [finish_part_tables, offer_entries, List.take_length]
    exact Or.inr ⟨rfl, hne, rfl⟩

/-- Witness of C10 amended: the name `////` a second time, when its text is
already an entry; no warning at all is issued. -/
theorem safer_name_suffix_separators_only_witness :
    posix.Sane ∧ "////".toList ≠ [] ∧ (∀ c ∈ "////".toList, posix.ISSLASH c = true) ∧
    ∃ o, safer_name_suffix posix (PrefixTables.mk (some ["////".toList]) none)
        "////".toList false false = some o ∧
      skip_prefixes posix "////".toList ("////".toList.length + 1) 0
        = some "////".toList.length ∧
      o.result = ['.'] ∧
      (∀ c, empty_warning c ∉ o.warnings) ∧
      o.warnings = (if "////".toList ∈
          entries ((PrefixTables.mk (some ["////".toList]) none).get false) then []
        else [removed_warning false "////".toList]) ∧
      "////".toList ∈ entries (o.tables.get false) :=
  ⟨posix_sane, by decide, by decide,
    safer_name_suffix_separators_only posix posix_sane
      (PrefixTables.mk (some ["////".toList]) none) "////".toList (by decide) (by decide)
      false⟩

/-- C11, as stated, fails on the name `..`: from the initial tables the call
returns `.`, and its only warning is the prefix-removal warning with the text
`..`; no empty-name warning is issued. -/
theorem bare_dotdot_counterexample :
    safer_name_suffix posix PrefixTables.init "..".toList false false =
      some ⟨['.'], ⟨some ["..".toList], none⟩,
        [⟨0, "Removing leading '%s' from member names".toList, ["..".toList]⟩]⟩ ∧
    ¬ ∃ o, safer_name_suffix posix PrefixTables.init "..".toList false false = some o ∧
      (empty_warning false ∈ o.warnings ∨ empty_warning true ∈ o.warnings) := by
  decide

/-- C11, amended: under the POSIX policy with `absolute_names` false, a name
(a C string) that is not empty and all of whose components are empty or `..`
(such as `..`, `../` and `../..`) is skipped as a whole: the returned name is
`.`, no empty-name warning is issued, and the prefix-removal warning with the
whole name as text is issued when the name is not yet an entry of the table
of the category, and no warning otherwise. When something remains after the
leading components that are empty or `..` (as for `../x`), the rest is
returned, no empty-name warning is issued, and every warning issued is the
prefix-removal warning of the category with the skipped bytes, which are not
empty, as text. -/
theorem safer_name_suffix_dotdot_sequence :
    (∀ (T : PrefixTables) (file_name : List Char) (link_target : Bool),
      IsCStr file_name → file_name ≠ [] →
      (∀ comp ∈ file_name.splitOn '/', comp = [] ∨ comp = ['.', '.']) →
      ∃ o, safer_name_suffix posix T file_name link_target false = some o ∧
        skip_prefixes posix file_name (file_name.length + 1) 0 = some file_name.length ∧
        o.result = ['.'] ∧
        (∀ c, empty_warning c ∉ o.warnings) ∧
        o.warnings = (if file_name ∈ entries (T.get link_target) then []
          else [removed_warning link_target file_name])) ∧
    (∀ (T : PrefixTables) (file_name : List Char) (link_target : Bool),
      IsCStr file_name → reference_rest file_name ≠ [] →
      ∃ o, safer_name_suffix posix T file_name link_target false = some o ∧
        o.result = reference_rest file_name ∧
        (∀ c, empty_warning c ∉ o.warnings) ∧
        ∀ w ∈ o.warnings, ∃ x, x ≠ [] ∧ file_name = x ++ reference_rest file_name ∧
          w = removed_warning link_target x) := by
  constructor
  · intro T file_name link_target hs hne hcomp
    obtain ⟨q, hq, hql, hqr⟩ := skip_prefixes_posix_reference file_name hs
      (file_name.length + 1) 0 (Nat.zero_le _) (by omega)
    rw [List.drop_zero, reference_rest_of_components hcomp, List.drop_eq_nil_iff] at hqr
    have hqe : q = file_name.length := by omega
    subst hqe
    obtain ⟨o, ho, hr, he, hw⟩ := outcome_of_all_skipped posix_sane T hne link_target hq
    exact ⟨o, ho, hq, hr, he, hw⟩
  · intro T file_name link_target hs hrest
    obtain ⟨q, hq, hql, hqr⟩ := skip_prefixes_posix_reference file_name hs
      (file_name.length + 1) 0 (Nat.zero_le _) (by omega)
    rw [List.drop_zero] at hqr
    have hdrop : file_name.drop q ≠ [] := by rw [hqr]; exact hrest
    obtain ⟨o, ho, hr, he, hw⟩ := outcome_of_rest posix_sane T hs link_target hq hdrop
    refine ⟨o, ho, by rw [hr, hqr], he, ?_⟩
    intro w hmem
    obtain ⟨h1, h2⟩ := hw w hmem
    refine ⟨file_name.take q, h1, ?_, h2⟩
    rw [← hqr, List.take_append_drop]

/-- Witness of C11 amended: the name `../..` as a hard link target, the first
time. -/
theorem safer_name_suffix_dotdot_sequence_witness :
    IsCStr "../..".toList ∧ "../..".toList ≠ [] ∧
    (∀ comp ∈ "../..".toList.splitOn '/', comp = [] ∨ comp = ['.', '.']) ∧
    ∃ o, safer_name_suffix posix PrefixTables.init "../..".toList true false = some o ∧
      skip_prefixes posix "../..".toList ("../..".toList.length + 1) 0
        = some "../..".toList.length ∧
      o.result = ['.'] ∧
      (∀ c, empty_warning c ∉ o.warnings) ∧
      o.warnings = (if "../..".toList ∈ entries (PrefixTables.init.get true) then []
        else [removed_warning true "../..".toList]) :=
  ⟨by decide, by decide, by decide,
    safer_name_suffix_dotdot_sequence.1 PrefixTables.init "../..".toList true
      (by decide) (by decide) (by decide)⟩

/-- C12: with sane platform macros, a call issues at most one warning, for
every name, flags and tables: never a prefix-removal warning together with an
empty-name warning, and none of them twice. Each warning issued has severity
0 and is the prefix-removal warning or the empty-name warning of the category
of the call, so its message is one of the four fixed ones. -/
theorem safer_name_suffix_at_most_one_warning (P : Platform) (hP : P.Sane)
    (T : PrefixTables) (file_name : List Char) (link_target absolute_names : Bool) :
    ∃ o, safer_name_suffix P T file_name link_target absolute_names = some o ∧
      o.warnings.length ≤ 1 ∧
      ¬ ((∃ c x, removed_warning c x ∈ o.warnings) ∧ (∃ c, empty_warning c ∈ o.warnings)) ∧
      ∀ w ∈ o.warnings, w.errnum = 0 ∧
        ((w.format = removing_diagnostic link_target ∧ ∃ x, w.args = [x]) ∨
         (w.format = "%s".toList ∧ w.args = [substituting_diagnostic link_target])) := by
  have key : ∃ o, safer_name_suffix P T file_name link_target absolute_names = some o ∧
      (o.warnings = [] ∨ (∃ x, o.warnings = [removed_warning link_target x]) ∨
        o.warnings = [empty_warning link_target]) := by
    cases absolute_names
    · obtain ⟨p, _, _, _, hcall⟩ := safer_name_suffix_false hP T file_name link_target
      refine ⟨_, hcall, ?_⟩
      rw [finish_part_warnings, offer_warnings]
      by_cases h0 : p = 0
      · subst h0
        simp only [List.take_zero, ne_eq, not_true_eq_false, false_and, if_false,
          List.nil_append]
        split
        · exact Or.inr (Or.inr rfl)
        · exact Or.inl rfl
      · simp only [h0, and_false, if_false]
        split
        · exact Or.inr (Or.inl ⟨_, rfl⟩)
        · exact Or.inl rfl
    · refine ⟨_, safer_name_suffix_true P T file_name link_target, ?_⟩
      rw [finish_part_warnings]
      split
      · exact Or.inr (Or.inr rfl)
      · exact Or.inl rfl
  obtain ⟨o, ho, hw⟩ := key
  refine ⟨o, ho, ?_, ?_, ?_⟩
  · rcases hw with h | ⟨x, h⟩ | h <;> simp [h]
  · rintro ⟨⟨c, x, h1⟩, ⟨c', h2⟩⟩
    rcases hw with h | ⟨y, h⟩ | h
    · rw [h] at h1; simp at h1
    · rw [h, List.mem_singleton] at h2
      exact removed_ne_empty _ _ _ h2.symm
    · rw [h, List.mem_singleton] at h1
      exact removed_ne_empty _ _ _ h1
  · intro w hmem
    rcases hw with h | ⟨y, h⟩ | h
    · rw [h] at hmem; simp at hmem
    · rw [h, List.mem_singleton] at hmem
      subst hmem
      exact ⟨rfl, Or.inl ⟨rfl, y, rfl⟩⟩
    · rw [h, List.mem_singleton] at hmem
      subst hmem
      exact ⟨rfl, Or.inr ⟨rfl, rfl⟩⟩

/-- Witness of C12 at the POSIX policy: the name `..` as a member name. -/
theorem safer_name_suffix_at_most_one_warning_witness :
    posix.Sane ∧
    ∃ o, safer_name_suffix posix PrefixTables.init "..".toList false false = some o ∧
      o.warnings.length ≤ 1 ∧
      ¬ ((∃ c x, removed_warning c x ∈ o.warnings) ∧ (∃ c, empty_warning c ∈ o.warnings)) ∧
      ∀ w ∈ o.warnings, w.errnum = 0 ∧
        ((w.format = removing_diagnostic false ∧ ∃ x, w.args = [x]) ∨
         (w.format = "%s".toList ∧ w.args = [substituting_diagnostic false])) :=
  ⟨posix_sane,
    safer_name_suffix_at_most_one_warning posix posix_sane PrefixTables.init "..".toList
      false false⟩

/-- C13: `removed_prefixes_p` is true exactly when one of the two tables
exists and has an entry. So, with sane platform macros, after any finite
sequence of calls from the initial tables it is true exactly when some call
of the sequence ran with `absolute_names` false and skipped at least one
byte. It is false on the initial tables and true after the call on `../x`. -/
theorem removed_prefixes_p_spec :
    (∀ T : PrefixTables, removed_prefixes_p T = true ↔
      ((∃ t, T.member = some t ∧ hash_get_n_entries t ≠ 0) ∨
       (∃ t, T.link = some t ∧ hash_get_n_entries t ≠ 0))) ∧
    (∀ (P : Platform), P.Sane → ∀ (calls : List Call),
      ∃ T ws, run P PrefixTables.init calls = some (T, ws) ∧
        (removed_prefixes_p T = true ↔
          ∃ call ∈ calls, call.absolute_names = false ∧
            ∃ p, skip_prefixes P call.file_name (call.file_name.length + 1) 0 = some p ∧
              p ≠ 0)) ∧
    removed_prefixes_p PrefixTables.init = false ∧
    ∃ o, safer_name_suffix posix PrefixTables.init "../x".toList false false = some o ∧
      removed_prefixes_p o.tables = true := by
  refine ⟨?_, ?_, by decide, ⟨_, rfl, by decide⟩⟩
  · rintro ⟨m, l⟩
    simp only [removed_prefixes_p, hash_get_n_entries, Bool.or_eq_true]
    constructor
    · rintro (h | h)
      · left
        cases m with
        | none => simp at h
        | some t => exact ⟨t, rfl, by simpa using h⟩
      · right
        cases l with
        | none => simp at h
        | some t => exact ⟨t, rfl, by simpa using h⟩
    · rintro (⟨t, ht, hn⟩ | ⟨t, ht, hn⟩)
      · left
        have ht' : m = some t := ht
        subst ht'
        simpa using hn
      · right
        have ht' : l = some t := ht
        subst ht'
        simpa using hn
  · intro P hP calls
    obtain ⟨T, ws, hr, hent⟩ := run_entries hP calls PrefixTables.init
    refine ⟨T, ws, hr, ?_⟩
    rw [removed_prefixes_p_iff]
    have hinit : ∀ c y, y ∉ entries (PrefixTables.init.get c) := by
      intro c y
      cases c <;> simp [PrefixTables.init, PrefixTables.get, entries]
    constructor
    · rintro ⟨c, y, hy⟩
      rcases (hent c y).mp hy with h | ⟨call, hm, ha, _, p, hp, h0, _⟩
      · exact absurd h (hinit c y)
      · exact ⟨call, hm, ha, p, hp, h0⟩
    · rintro ⟨call, hm, ha, p, hp, h0⟩
      exact ⟨call.link_target, call.file_name.take p,
        (hent _ _).mpr (Or.inr ⟨call, hm, ha, rfl, p, hp, h0, rfl⟩)⟩

/-- Witness of C13 at the POSIX policy: of three calls only the second one
skips bytes with `absolute_names` false. -/
theorem removed_prefixes_p_spec_witness :
    posix.Sane ∧
    ∃ T ws, run posix PrefixTables.init
        [⟨"x".toList, false, false⟩, ⟨"/y".toList, true, false⟩,
         ⟨"/z".toList, false, true⟩] = some (T, ws) ∧
      (removed_prefixes_p T = true ↔
        ∃ call ∈ [(⟨"x".toList, false, false⟩ : Call), ⟨"/y".toList, true, false⟩,
            ⟨"/z".toList, false, true⟩], call.absolute_names = false ∧
          ∃ p, skip_prefixes posix call.file_name (call.file_name.length + 1) 0 = some p ∧
            p ≠ 0) :=
  ⟨posix_sane,
    removed_prefixes_p_spec.2.1 posix posix_sane
      [⟨"x".toList, false, false⟩, ⟨"/y".toList, true, false⟩, ⟨"/z".toList, false, true⟩]⟩

/-- C14, as stated, fails when the text is already an entry: for the table
holding `../`, the string `../x` and the length 3, the function returns
false, leaves the table as it is and stores nothing through `return_prefix`,
so the caller receives no reference to the stored copy. -/
theorem insert_known_counterexample :
    hash_string_insert_prefix (some ["../".toList]) "../x".toList 3
      = (some ["../".toList], false, none) ∧
    ¬ ( hash_string_insert_prefix (some ["../".toList]) "../x".toList 3).2.2
      = some ("../x".toList.take 3) := by
  decide

/-- C14, amended: for every table, string and length `len` at most the length
of the string, with the text being the first `len` bytes of the string:
`hash_string_insert_prefix` returns true exactly when the text was no entry
of the table; afterwards the table exists and its entries are the former ones
and the text; a table without repeated entries stays without repeated
entries, so the text is held once; when the text was an entry already, the table is as it was, the
function returns false and stores nothing through `return_prefix`; when the
text was no entry, the copy stored through `return_prefix` is the text, of
`len` bytes. -/
theorem hash_string_insert_prefix_spec (table : Option Hash_table) (string : List Char)
    (len : Nat) (hlen : len ≤ string.length) :
    (( hash_string_insert_prefix table string len).2.1 = true ↔
      string.take len ∉ entries table) ∧
    (∃ t, ( hash_string_insert_prefix table string len).1 = some t) ∧
    (∀ y, y ∈ entries ( hash_string_insert_prefix table string len).1 ↔
      y ∈ entries table ∨ y = string.take len) ∧
    ((entries table).Nodup →
      (entries ( hash_string_insert_prefix table string len).1).Nodup) ∧
    (string.take len ∈ entries table →
      hash_string_insert_prefix table string len = (table, false, none)) ∧
    (string.take len ∉ entries table →
      ( hash_string_insert_prefix table string len).2.2 = some (string.take len) ∧
      (string.take len).length = len) := by
  have hE := hash_string_insert_prefix_eq table string len
  by_cases hm : string.take len ∈ entries table
  · have hr : hash_string_insert_prefix table string len
        = (some (entries table), false, none) := by
      rw [hE, if_pos hm]
    have htab : some (entries table) = table := by
      cases table with
      | none => simp [entries] at hm
      | some t => rfl
    rw [hr]
    refine ⟨?_, ⟨_, rfl⟩, ?_, ?_, ?_, ?_⟩
    · simp [hm]
    · intro y
      constructor
      · exact Or.inl
      · rintro (h | rfl)
        · exact h
        · exact hm
    · exact fun hnd => hnd
    · intro _
      rw [htab]
    · intro h
      exact absurd hm h
  · have hr : hash_string_insert_prefix table string len
        = (some (entries table ++ [string.take len]), true, some (string.take len)) := by
      rw [hE, if_neg hm]
    rw [hr]
    refine ⟨?_, ⟨_, rfl⟩, ?_, ?_, ?_, ?_⟩
    · simp [hm]
    · intro y
      simp [entries]
    · intro hnd
      show (entries table ++ [string.take len]).Nodup
      rw [List.nodup_append]
      refine ⟨hnd, List.nodup_singleton _, ?_⟩
      intro a ha hb
      rw [List.mem_singleton] at hb
      subst hb
      exact hm ha
    · intro h
      exact absurd h hm
    · intro _
      refine ⟨rfl, ?_⟩
      rw [List.length_take]
      omega

/-- Witness of C14 amended: the first two bytes of `//x`, on a table that
holds `../`. -/
theorem hash_string_insert_prefix_spec_witness :
    2 ≤ "//x".toList.length ∧
    (( hash_string_insert_prefix (some ["../".toList]) "//x".toList 2).2.1 = true ↔
      "//x".toList.take 2 ∉ entries (some ["../".toList])) ∧
    (∃ t, ( hash_string_insert_prefix (some ["../".toList]) "//x".toList 2).1 = some t) ∧
    (∀ y, y ∈ entries ( hash_string_insert_prefix (some ["../".toList]) "//x".toList 2).1 ↔
      y ∈ entries (some ["../".toList]) ∨ y = "//x".toList.take 2) ∧
    ((entries (some ["../".toList])).Nodup →
      (entries ( hash_string_insert_prefix (some ["../".toList]) "//x".toList 2).1).Nodup) ∧
    ("//x".toList.take 2 ∈ entries (some ["../".toList]) →
      hash_string_insert_prefix (some ["../".toList]) "//x".toList 2
        = (some ["../".toList], false, none)) ∧
    ("//x".toList.take 2 ∉ entries (some ["../".toList]) →
      ( hash_string_insert_prefix (some ["../".toList]) "//x".toList 2).2.2
        = some ("//x".toList.take 2) ∧
      ("//x".toList.take 2).length = 2) :=
  ⟨by decide,
    hash_string_insert_prefix_spec (some ["../".toList]) "//x".toList 2 (by decide)⟩

/-- C15, as stated, fails on a repeated prefix: the first call on `../x`
returns `x` with the prefix-removal warning, and the second call on `../x`,
from the tables the first one left, returns `x`, which is not the file name,
without any warning. -/
theorem unwarned_change_counterexample :
    safer_name_suffix posix PrefixTables.init "../x".toList false false =
      some ⟨"x".toList, ⟨some ["../".toList], none⟩,
        [⟨0, "Removing leading '%s' from member names".toList, ["../".toList]⟩]⟩ ∧
    safer_name_suffix posix ⟨some ["../".toList], none⟩ "../x".toList false false =
      some ⟨"x".toList, ⟨some ["../".toList], none⟩, []⟩ ∧
    "x".toList ≠ "../x".toList := by
  decide

/-- C15, amended: with sane platform macros, for every name, flags and
tables, if the returned name differs from the file name then the call issues
a warning, unless it ran with `absolute_names` false and the bytes it
skipped, at least one, were already an entry of the table of its category. -/
theorem safer_name_suffix_warns_or_known (P : Platform) (hP : P.Sane) (T : PrefixTables)
    (file_name : List Char) (link_target absolute_names : Bool) :
    ∃ o, safer_name_suffix P T file_name link_target absolute_names = some o ∧
      (o.result ≠ file_name →
        o.warnings ≠ [] ∨
        (absolute_names = false ∧
          ∃ p, skip_prefixes P file_name (file_name.length + 1) 0 = some p ∧ p ≠ 0 ∧
            file_name.take p ∈ entries (T.get link_target))) := by
  have hzero : ∀ (T' : PrefixTables) (w : List Warning),
      (finish_part file_name link_target 0 T' w).result ≠ file_name →
      (finish_part file_name link_target 0 T' w).warnings ≠ [] := by
    intro T' w hne
    rw [finish_part_result] at hne
    rw [finish_part_warnings]
    by_cases h0 : charAt file_name 0 = NUL
    · simp [h0]
    · rw [if_neg h0, List.drop_zero] at hne
      exact absurd rfl hne
  cases absolute_names
  · obtain ⟨p, hp, hle, _, hcall⟩ := safer_name_suffix_false hP T file_name link_target
    refine ⟨_, hcall, ?_⟩
    intro hne
    by_cases h0 : p = 0
    · subst h0
      exact Or.inl (hzero _ _ hne)
    · by_cases hm : file_name.take p ∈ entries (T.get link_target)
      · exact Or.inr ⟨rfl, p, hp, h0, hm⟩
      · left
        have htake : file_name.take p ≠ [] := by
          intro h
          have := congrArg List.length h
          rw [List.length_take, List.length_nil] at this
          omega
        rw [finish_part_warnings, offer_warnings]
        simp [h0, htake, hm]
  · refine ⟨_, safer_name_suffix_true P T file_name link_target, ?_⟩
    intro hne
    exact Or.inl (hzero _ _ hne)

/-- Witness of C15 amended: the call on `/x` from tables that hold `../`
changes the name and issues a warning. -/
theorem safer_name_suffix_warns_or_known_witness :
    posix.Sane ∧
    ∃ o, safer_name_suffix posix (PrefixTables.mk (some ["../".toList]) none) "/x".toList
        false false = some o ∧
      (o.result ≠ "/x".toList →
        o.warnings ≠ [] ∨
        (false = false ∧
          ∃ p, skip_prefixes posix "/x".toList ("/x".toList.length + 1) 0 = some p ∧ p ≠ 0 ∧
            "/x".toList.take p ∈ entries ((PrefixTables.mk (some ["../".toList]) none).get
              false))) :=
  ⟨posix_sane,
    safer_name_suffix_warns_or_known posix posix_sane
      (PrefixTables.mk (some ["../".toList]) none) "/x".toList false false⟩

/-- C16: with sane platform macros (the POSIX policy is one) the scan ends on
every name. The loop is the iteration of `loop_step`; an iteration from an
offset within the string that does not break moves the offset forward, by 1
on a separator, by 2 on `..`, by the positive platform prefix length
otherwise, and not beyond the length of the name; every byte read by the
conditions of an iteration lies within the string or is its terminator, and
the bytes before a byte read ahead are no terminators; and with more fuel
than there are bytes left the loop breaks at an offset between the starting
offset and the length of the name. -/
theorem skip_prefixes_terminates (P : Platform) (hP : P.Sane) (file_name : List Char) :
    (∀ fuel p, skip_prefixes P file_name (fuel + 1) p =
      match loop_step P file_name p with
      | none => some p
      | some p' => skip_prefixes P file_name fuel p') ∧
    (∀ p p', p ≤ file_name.length → loop_step P file_name p = some p' →
      p < p' ∧ p' ≤ file_name.length ∧
      ((P.ISSLASH (charAt file_name p) = true ∧ p' = p + 1) ∨
       (charAt file_name p = '.' ∧ charAt file_name (p + 1) = '.' ∧ p' = p + 2) ∨
       (0 < P.FILE_SYSTEM_PREFIX_LEN (file_name.drop p) ∧
        p' = p + P.FILE_SYSTEM_PREFIX_LEN (file_name.drop p)))) ∧
    (∀ p, p ≤ file_name.length → ∀ i ∈ loop_reads P file_name p,
      p ≤ i ∧ i ≤ p + 2 ∧ i ≤ file_name.length ∧
      ∀ j, p ≤ j → j < i → charAt file_name j ≠ NUL) ∧
    (∀ fuel p, p ≤ file_name.length → file_name.length - p < fuel →
      ∃ q, skip_prefixes P file_name fuel p = some q ∧ p ≤ q ∧ q ≤ file_name.length) := by
  refine ⟨?_, ?_, ?_, ?_⟩
  · intro fuel p
    rw [skip_prefixes_succ, loop_step_eq]
    split_ifs <;> rfl
  · intro p p' hp hstep
    unfold loop_step at hstep
    by_cases h1 : P.ISSLASH (charAt file_name p) = true
    · rw [if_pos h1] at hstep
      cases hstep
      have hne : charAt file_name p ≠ NUL := by
        intro h0; rw [h0, hP.nul_not_slash] at h1; exact Bool.noConfusion h1
      have := lt_of_charAt_ne_nul hne
      exact ⟨by omega, by omega, Or.inl ⟨h1, rfl⟩⟩
    · rw [if_neg h1] at hstep
      split at hstep
      · rename_i h2
        cases hstep
        simp only [Bool.and_eq_true, beq_iff_eq] at h2
        have hne : charAt file_name (p + 1) ≠ NUL := by rw [h2.1.2]; exact dot_ne_nul
        have := lt_of_charAt_ne_nul hne
        exact ⟨by omega, by omega, Or.inr (Or.inl ⟨h2.1.1, h2.1.2, rfl⟩)⟩
      · simp only at hstep
        split at hstep
        · cases hstep
        · rename_i h3
          cases hstep
          have h3' : P.FILE_SYSTEM_PREFIX_LEN (file_name.drop p) ≠ 0 := by simpa using h3
          have := hP.len_le (file_name.drop p)
          rw [List.length_drop] at this
          exact ⟨by omega, by omega, Or.inr (Or.inr ⟨by omega, rfl⟩)⟩
  · intro p hp i hi
    unfold loop_reads at hi
    have h0 : ∀ j, p ≤ j → j < p → charAt file_name j ≠ NUL := fun j h h' => by omega
    by_cases h1 : P.ISSLASH (charAt file_name p) = true
    · rw [if_pos h1, List.mem_singleton] at hi
      subst hi
      exact ⟨le_refl _, by omega, hp, h0⟩
    · rw [if_neg h1] at hi
      by_cases hd : charAt file_name p = '.'
      · have hd' : (charAt file_name p == '.') = true := by simpa using hd
        rw [if_pos hd'] at hi
        have hne : charAt file_name p ≠ NUL := by rw [hd]; exact dot_ne_nul
        have hlt := lt_of_charAt_ne_nul hne
        have hj1 : ∀ j, p ≤ j → j < p + 1 → charAt file_name j ≠ NUL := by
          intro j h h'
          have : j = p := by omega
          rw [this]; exact hne
        by_cases hd1 : charAt file_name (p + 1) = '.'
        · have hd1' : (charAt file_name (p + 1) == '.') = true := by simpa using hd1
          rw [if_pos hd1'] at hi
          have hne1 : charAt file_name (p + 1) ≠ NUL := by rw [hd1]; exact dot_ne_nul
          have hlt1 := lt_of_charAt_ne_nul hne1
          have hj2 : ∀ j, p ≤ j → j < p + 2 → charAt file_name j ≠ NUL := by
            intro j h h'
            have : j = p ∨ j = p + 1 := by omega
            rcases this with rfl | rfl
            · exact hne
            · exact hne1
          have hmem : i = p ∨ i = p + 1 ∨ i = p + 2 := by
            split at hi <;> simp at hi <;> omega
          rcases hmem with rfl | rfl | rfl
          · exact ⟨le_refl _, by omega, hp, h0⟩
          · exact ⟨by omega, by omega, by omega, hj1⟩
          · exact ⟨by omega, by omega, by omega, hj2⟩
        · have hd1' : ¬ (charAt file_name (p + 1) == '.') = true := by simpa using hd1
          rw [if_neg hd1'] at hi
          have hmem : i = p ∨ i = p + 1 := by
            simp at hi; omega
          rcases hmem with rfl | rfl
          · exact ⟨le_refl _, by omega, hp, h0⟩
          · exact ⟨by omega, by omega, by omega, hj1⟩
      · have hd' : ¬ (charAt file_name p == '.') = true := by simpa using hd
        rw [if_neg hd'] at hi
        have hmem : i = p := by simpa using hi
        subst hmem
        exact ⟨le_refl _, by omega, hp, h0⟩
  · intro fuel p hp hf
    obtain ⟨q, hq, hql⟩ := skip_prefixes_total hP file_name fuel p hp hf
    exact ⟨q, hq, (skip_prefixes_stops P file_name fuel p q hq).1, hql⟩

/-- Witness of C16 at the policy with drive specifiers, on the name
`c:/../x`. -/
theorem skip_prefixes_terminates_witness :
    drive.Sane ∧
    (∀ fuel p, skip_prefixes drive "c:/../x".toList (fuel + 1) p =
      match loop_step drive "c:/../x".toList p with
      | none => some p
      | some p' => skip_prefixes drive "c:/../x".toList fuel p') ∧
    (∀ p p', p ≤ "c:/../x".toList.length → loop_step drive "c:/../x".toList p = some p' →
      p < p' ∧ p' ≤ "c:/../x".toList.length ∧
      ((drive.ISSLASH (charAt "c:/../x".toList p) = true ∧ p' = p + 1) ∨
       (charAt "c:/../x".toList p = '.' ∧ charAt "c:/../x".toList (p + 1) = '.' ∧
        p' = p + 2) ∨
       (0 < drive.FILE_SYSTEM_PREFIX_LEN ("c:/../x".toList.drop p) ∧
        p' = p + drive.FILE_SYSTEM_PREFIX_LEN ("c:/../x".toList.drop p)))) ∧
    (∀ p, p ≤ "c:/../x".toList.length → ∀ i ∈ loop_reads drive "c:/../x".toList p,
      p ≤ i ∧ i ≤ p + 2 ∧ i ≤ "c:/../x".toList.length ∧
      ∀ j, p ≤ j → j < i → charAt "c:/../x".toList j ≠ NUL) ∧
    (∀ fuel p, p ≤ "c:/../x".toList.length → "c:/../x".toList.length - p < fuel →
      ∃ q, skip_prefixes drive "c:/../x".toList fuel p = some q ∧ p ≤ q ∧
        q ≤ "c:/../x".toList.length) :=
  ⟨drive_sane, skip_prefixes_terminates drive drive_sane "c:/../x".toList⟩

/-- C17: a name that is not empty and at whose start none of the three
patterns matches (its first byte is no separator, it is not `..` and does not
begin with `..` followed by a separator, and it has no platform prefix) is
returned unchanged with `absolute_names` false, without a warning and with
both tables unchanged. In particular `..` components that are not leading are
kept: `a/../../b`, `./../x`, `..foo` and `...` are returned unchanged under
the POSIX policy. -/
theorem safer_name_suffix_relative_unchanged :
    (∀ (P : Platform) (T : PrefixTables) (file_name : List Char) (link_target : Bool),
      IsCStr file_name → file_name ≠ [] →
      (∀ c rest, file_name = c :: rest → P.ISSLASH c = false) →
      file_name ≠ ['.', '.'] →
      (∀ c rest, file_name = '.' :: '.' :: c :: rest → P.ISSLASH c = false) →
      P.FILE_SYSTEM_PREFIX_LEN file_name = 0 →
      ∃ o, safer_name_suffix P T file_name link_target false = some o ∧
        o.result = file_name ∧ o.warnings = [] ∧ o.tables = T) ∧
    safer_name_suffix posix PrefixTables.init "a/../../b".toList false false =
      some ⟨"a/../../b".toList, PrefixTables.init, []⟩ ∧
    safer_name_suffix posix PrefixTables.init "./../x".toList false false =
      some ⟨"./../x".toList, PrefixTables.init, []⟩ ∧
    safer_name_suffix posix PrefixTables.init "..foo".toList false false =
      some ⟨"..foo".toList, PrefixTables.init, []⟩ ∧
    safer_name_suffix posix PrefixTables.init "...".toList false false =
      some ⟨"...".toList, PrefixTables.init, []⟩ := by
  refine ⟨?_, by decide, by decide, by decide, by decide⟩
  intro P T file_name link_target hs hne h1 h2 h3 h4
  have hne0 : charAt file_name 0 ≠ NUL := by
    rw [Ne, charAt_eq_nul_iff hs]
    simpa using hne
  have hstop : Stops P file_name 0 := stops_zero_of_bytes hs hne h1 h2 h3 h4
  obtain ⟨o, ho, hr, ht, hw⟩ := result_of_stops hstop hne0 T link_target
  exact ⟨o, ho, hr, hw, ht⟩

/-- Witness of C17: the name `..foo/bar` under the policy with drive
specifiers, as a hard link target. -/
theorem safer_name_suffix_relative_unchanged_witness :
    IsCStr "..foo/bar".toList ∧ "..foo/bar".toList ≠ [] ∧
    (∀ c rest, "..foo/bar".toList = c :: rest → drive.ISSLASH c = false) ∧
    "..foo/bar".toList ≠ ['.', '.'] ∧
    (∀ c rest, "..foo/bar".toList = '.' :: '.' :: c :: rest → drive.ISSLASH c = false) ∧
    drive.FILE_SYSTEM_PREFIX_LEN "..foo/bar".toList = 0 ∧
    ∃ o, safer_name_suffix drive PrefixTables.init "..foo/bar".toList true false = some o ∧
      o.result = "..foo/bar".toList ∧ o.warnings = [] ∧ o.tables = PrefixTables.init :=
  have h1 : ∀ c rest, "..foo/bar".toList = c :: rest → drive.ISSLASH c = false := by
    intro c rest h
    have : c = '.' := by
      have := congrArg List.head? h
      simpa using this.symm
    subst this
    decide
  have h3 : ∀ c rest, "..foo/bar".toList = '.' :: '.' :: c :: rest →
      drive.ISSLASH c = false := by
    intro c rest h
    have : c = 'f' := by
      have := congrArg (fun l => List.getD l 2 NUL) h
      simpa using this.symm
    subst this
    decide
  ⟨by decide, by decide, h1, by decide, h3, by decide,
    safer_name_suffix_relative_unchanged.1 drive PrefixTables.init "..foo/bar".toList true
      (by decide) (by decide) h1 (by decide) h3 (by decide)⟩

/-- C18: with sane platform macros the returned name depends on the file name
and on `absolute_names` only: two calls on the same name with the same
`absolute_names` return the same name, whatever their categories and
tables. -/
theorem safer_name_suffix_result_independent (P : Platform) (hP : P.Sane)
    (file_name : List Char) (absolute_names : Bool) (b₁ b₂ : Bool) (T₁ T₂ : PrefixTables) :
    ∃ o₁ o₂, safer_name_suffix P T₁ file_name b₁ absolute_names = some o₁ ∧
      safer_name_suffix P T₂ file_name b₂ absolute_names = some o₂ ∧
      o₁.result = o₂.result := by
  cases absolute_names
  · obtain ⟨p, hp, _, _, hcall⟩ := safer_name_suffix_false hP T₁ file_name b₁
    obtain ⟨p', hp', _, _, hcall'⟩ := safer_name_suffix_false hP T₂ file_name b₂
    have hpp : p' = p := Option.some.inj (hp'.symm.trans hp)
    subst hpp
    refine ⟨_, _, hcall, hcall', ?_⟩
    rw [finish_part_result, finish_part_result]
  · refine ⟨_, _, safer_name_suffix_true P T₁ file_name b₁,
      safer_name_suffix_true P T₂ file_name b₂, ?_⟩
    rw [finish_part_result, finish_part_result]

/-- Witness of C18 at the POSIX policy: `../x` as a member name from the
initial tables and as a hard link target from other tables. -/
theorem safer_name_suffix_result_independent_witness :
    posix.Sane ∧
    ∃ o₁ o₂, safer_name_suffix posix PrefixTables.init "../x".toList false false = some o₁ ∧
      safer_name_suffix posix (PrefixTables.mk (some ["../".toList]) (some ["/".toList]))
        "../x".toList true false = some o₂ ∧
      o₁.result = o₂.result :=
  ⟨posix_sane,
    safer_name_suffix_result_independent posix posix_sane "../x".toList false false true
      PrefixTables.init (PrefixTables.mk (some ["../".toList]) (some ["/".toList]))⟩

/-- C19: the tables only grow. With sane platform macros, after a call each
table has its former entries, and either both tables are as they were, or
the call ran with `absolute_names` false and the bytes it skipped, which are
not empty and were no entry of the table of its category, have been added to
that table as one new entry while the other table is as it was. Hence, once
`removed_prefixes_p` is true, it is true after every later call and after
every later sequence of calls. -/
theorem prefix_tables_only_grow :
    (∀ (P : Platform), P.Sane → ∀ (T : PrefixTables) (file_name : List Char)
        (link_target absolute_names : Bool),
      ∃ o, safer_name_suffix P T file_name link_target absolute_names = some o ∧
        (∀ c y, y ∈ entries (T.get c) → y ∈ entries (o.tables.get c)) ∧
        (o.tables = T ∨
          ∃ x, x ≠ [] ∧ x ∉ entries (T.get link_target) ∧ absolute_names = false ∧
            (∃ p, skip_prefixes P file_name (file_name.length + 1) 0 = some p ∧
              file_name.take p = x) ∧
            o.tables.get link_target = some (entries (T.get link_target) ++ [x]) ∧
            o.tables.get (!link_target) = T.get (!link_target)) ∧
        (removed_prefixes_p T = true → removed_prefixes_p o.tables = true)) ∧
    (∀ (P : Platform), P.Sane → ∀ (T : PrefixTables) (calls : List Call),
      removed_prefixes_p T = true →
      ∃ T' ws, run P T calls = some (T', ws) ∧ removed_prefixes_p T' = true) := by
  constructor
  · intro P hP T file_name link_target absolute_names
    have key : ∃ o, safer_name_suffix P T file_name link_target absolute_names = some o ∧
        (o.tables = T ∨
          ∃ x, x ≠ [] ∧ x ∉ entries (T.get link_target) ∧ absolute_names = false ∧
            (∃ p, skip_prefixes P file_name (file_name.length + 1) 0 = some p ∧
              file_name.take p = x) ∧
            o.tables.get link_target = some (entries (T.get link_target) ++ [x]) ∧
            o.tables.get (!link_target) = T.get (!link_target)) := by
      cases absolute_names
      · obtain ⟨p, hp, _, _, hcall⟩ := safer_name_suffix_false hP T file_name link_target
        refine ⟨_, hcall, ?_⟩
        rw [finish_part_tables]
        rcases offer_tables T link_target (file_name.take p) with h | ⟨h1, h2, h3⟩
        · exact Or.inl h
        · right
          refine ⟨_, h1, h2, rfl, ⟨p, hp, rfl⟩, ?_, ?_⟩
          · rw [h3, get_set]; simp
          · rw [h3, get_set]; cases link_target <;> simp
      · refine ⟨_, safer_name_suffix_true P T file_name link_target, Or.inl ?_⟩
        rw [finish_part_tables]
    obtain ⟨o, ho, hcases⟩ := key
    have hsup : ∀ c y, y ∈ entries (T.get c) → y ∈ entries (o.tables.get c) := by
      intro c y hy
      rcases hcases with h | ⟨x, _, _, _, _, h5, h6⟩
      · rw [h]; exact hy
      · by_cases hc : c = link_target
        · subst hc
          rw [h5]
          simp only [entries, List.mem_append, List.mem_singleton]
          exact Or.inl hy
        · have : c = !link_target := by
            cases c <;> cases link_target <;> simp at hc ⊢
          rw [this, h6, ← this]
          exact hy
    refine ⟨o, ho, hsup, hcases, ?_⟩
    rw [removed_prefixes_p_iff, removed_prefixes_p_iff]
    rintro ⟨c, y, hy⟩
    exact ⟨c, y, hsup c y hy⟩
  · intro P hP T calls hT
    obtain ⟨T', ws, hr, hent⟩ := run_entries hP calls T
    refine ⟨T', ws, hr, ?_⟩
    rw [removed_prefixes_p_iff] at hT ⊢
    obtain ⟨c, y, hy⟩ := hT
    exact ⟨c, y, (hent c y).mpr (Or.inl hy)⟩

/-- Witness of C19 at the POSIX policy: `/etc/passwd` as a member name after
`../` was stripped from a member name. -/
theorem prefix_tables_only_grow_witness :
    posix.Sane ∧
    ∃ o, safer_name_suffix posix (PrefixTables.mk (some ["../".toList]) none)
        "/etc/passwd".toList false false = some o ∧
      (∀ c y, y ∈ entries ((PrefixTables.mk (some ["../".toList]) none).get c) →
        y ∈ entries (o.tables.get c)) ∧
      (o.tables = PrefixTables.mk (some ["../".toList]) none ∨
        ∃ x, x ≠ [] ∧ x ∉ entries ((PrefixTables.mk (some ["../".toList]) none).get false) ∧
          false = false ∧
          (∃ p, skip_prefixes posix "/etc/passwd".toList ("/etc/passwd".toList.length + 1) 0
              = some p ∧
            "/etc/passwd".toList.take p = x) ∧
          o.tables.get false
            = some (entries ((PrefixTables.mk (some ["../".toList]) none).get false) ++ [x]) ∧
          o.tables.get (!false) = (PrefixTables.mk (some ["../".toList]) none).get (!false)) ∧
      (removed_prefixes_p (PrefixTables.mk (some ["../".toList]) none) = true →
        removed_prefixes_p o.tables = true) :=
  ⟨posix_sane,
    prefix_tables_only_grow.1 posix posix_sane (PrefixTables.mk (some ["../".toList]) none)
      "/etc/passwd".toList false false⟩

end Paxlib
